import Mathlib

/-!
# midiplay: keyboard geometry, highlight state and frame export

A shallow embedding of `src/main.js`.

* JavaScript numbers are modelled as exact rationals (`ℚ`); the values read
  with `parseInt` (`startOctave`, `octavesAmount`, `fps`) are integers.
* The svg element `#keyboard` is modelled by the list of its children in
  document order; `document.getElementById` returns the first child with the
  requested id (the elements of the page outside the svg carry ids that are
  not note names).  Only the attributes `id`, `x`, `y`, `width`, `height` and
  `fill` are kept (`font-size`, `text-anchor`, `alignment-baseline` and the
  text content of a label are never read back by the program).
* `Array.prototype.sort` is a stable sort; it is modelled by the stable
  insertion sort of the library.
* The collaborators `htmlToImage.toPng` and `JSZip` are modelled by a capture
  function that may fail and by a list of named entries in which an entry of
  the same name is replaced.
-/

namespace Midiplay

/-! ## Data model -/

/-- The two kinds of children that `buildKeyboard` appends to the svg. -/
inductive Tag where
  | rect
  | text
  deriving DecidableEq, Repr

/-- One child element of the svg. -/
structure Elem where
  tag : Tag
  id : String
  x : ℚ
  y : ℚ
  width : ℚ
  height : ℚ
  fill : String
  deriving DecidableEq

/-- The children of the svg, in document order. -/
abbrev Doc := List Elem

/-- The svg after `buildKeyboard`: its children and the `width`, `height` and
`viewBox` attributes (`viewBox` is `0 0 width height`). -/
structure Keyboard where
  children : Doc
  width : ℚ
  height : ℚ
  viewBox : ℚ × ℚ × ℚ × ℚ

/-- The constant `whiteNotesLetters = ["C","D","E","F","G","A","B"]`. -/
def whiteNotesLetters : List String := ["C", "D", "E", "F", "G", "A", "B"]

/-- The constant `blackNotesMap = { C: "C#", D: "D#", F: "F#", G: "G#", A: "A#" }`,
looked up with a one-character key. -/
def blackNotesMap (letter : Char) : Option String :=
  if letter = 'C' then some "C#"
  else if letter = 'D' then some "D#"
  else if letter = 'F' then some "F#"
  else if letter = 'G' then some "G#"
  else if letter = 'A' then some "A#"
  else none

/-- The function `generateWhiteNotes(startOctave, octavesAmount)`: for `o` from
`startOctave` while `o < startOctave + octavesAmount`, push `letter + o` for
every white letter. -/
def generateWhiteNotes (startOctave octavesAmount : Int) : List String :=
  (List.range octavesAmount.toNat).flatMap fun k =>
    whiteNotesLetters.map fun letter => letter ++ toString (startOctave + (k : Int))

/-- The identifier `blackNotesMap[letter] + octave` of the black key drawn
after the white key `note`, where `letter = note[0]` and
`octave = note[note.length - 1]`; `none` when the letter has no sharp. -/
def blackIdOf (note : String) : Option String :=
  match note.data.head?, note.data.getLast? with
  | some letter, some octave =>
    match blackNotesMap letter with
    | some sharp => some (sharp ++ String.singleton octave)
    | none => none
  | _, _ => none

/-- The white `rect` drawn for `note` at horizontal offset `x`. -/
def whiteRect (whiteW whiteH : ℚ) (note : String) (x : ℚ) : Elem :=
  { tag := Tag.rect, id := note, x := x, y := 0, width := whiteW, height := whiteH,
    fill := "#D9D9D9" }

/-- The label drawn on the white key `note`. -/
def whiteLabel (whiteW whiteH : ℚ) (note : String) (x : ℚ) : Elem :=
  { tag := Tag.text, id := "label-" ++ note, x := x + whiteW / 2, y := whiteH - 7,
    width := 0, height := 0, fill := "#111111" }

/-- The black `rect` with identifier `blackId` drawn after the white key at
offset `x`. -/
def blackRect (whiteW blackW blackH : ℚ) (blackId : String) (x : ℚ) : Elem :=
  { tag := Tag.rect, id := blackId, x := x + whiteW - blackW / 2, y := 0, width := blackW,
    height := blackH, fill := "#111111" }

/-- The label drawn on the black key `blackId`. -/
def blackLabel (whiteW blackW blackH : ℚ) (blackId : String) (x : ℚ) : Elem :=
  { tag := Tag.text, id := "label-" ++ blackId, x := x + whiteW - blackW / 2 + blackW / 2,
    y := blackH - 5, width := 0, height := 0, fill := "#D9D9D9" }

/-- The state of the first loop of `buildKeyboard`. -/
structure WhiteLoop where
  x : ℚ
  svg : Doc
  whitePositions : List (String × ℚ)

/-- One iteration of `whiteNotes.forEach(note => ...)`. -/
def whiteStep (whiteW whiteH : ℚ) (showLabels showCOnly : Bool) (st : WhiteLoop)
    (note : String) : WhiteLoop :=
  let svg := st.svg ++ [whiteRect whiteW whiteH note st.x]
  let svg :=
    if showLabels && (!showCOnly || (showCOnly && note.data.head? == some 'C')) then
      svg ++ [whiteLabel whiteW whiteH note st.x]
    else svg
  { x := st.x + whiteW + 2, svg := svg, whitePositions := st.whitePositions ++ [(note, st.x)] }

/-- One iteration of `whitePositions.forEach(({ note, x }) => ...)`. -/
def blackStep (whiteW blackW blackH : ℚ) (showLabels showCOnly : Bool) (svg : Doc)
    (p : String × ℚ) : Doc :=
  match blackIdOf p.1 with
  | some blackId =>
    let svg := svg ++ [blackRect whiteW blackW blackH blackId p.2]
    if showLabels && !showCOnly then svg ++ [blackLabel whiteW blackW blackH blackId p.2]
    else svg
  | none => svg

/-- The loop `whiteNotes.forEach` of `buildKeyboard`, started with `x = 0` on
the emptied svg. -/
def whiteLoop (whiteW whiteH : ℚ) (showLabels showCOnly : Bool) (whiteNotes : List String) :
    WhiteLoop :=
  whiteNotes.foldl (whiteStep whiteW whiteH showLabels showCOnly)
    { x := 0, svg := [], whitePositions := [] }

/-- The function `buildKeyboard(whiteW, whiteH, blackW, blackH, showLabels, showCOnly,
fontSize, startOctave, octavesAmount)`. -/
def buildKeyboard (whiteW whiteH blackW blackH : ℚ) (showLabels showCOnly : Bool)
    (startOctave octavesAmount : Int) : Keyboard :=
  let whiteNotes := generateWhiteNotes startOctave octavesAmount
  let w := whiteLoop whiteW whiteH showLabels showCOnly whiteNotes
  let svg := w.whitePositions.foldl (blackStep whiteW blackW blackH showLabels showCOnly) w.svg
  { children := svg, width := w.x, height := whiteH, viewBox := (0, 0, w.x, whiteH) }

/-- The constant added to `x` after every white key besides its width. -/
def gap : ℚ := 2

/-- The elements selected by `svg.querySelectorAll("rect")`. -/
def isRect (e : Elem) : Bool := e.tag == Tag.rect

/-- The test `id.includes("#")`. -/
def includesHash (s : String) : Bool := s.data.contains '#'

/-- The white keys of a document: the rects whose id has no `#`. -/
def whiteKeys (doc : Doc) : List Elem := doc.filter fun e => isRect e && !includesHash e.id

/-- The black keys of a document: the rects whose id has a `#`. -/
def blackKeys (doc : Doc) : List Elem := doc.filter fun e => isRect e && includesHash e.id

/-! ## Structure of the keyboard -/

/-- The offsets the first loop assigns: the first note gets `x0`, every next
one `whiteW + 2` more. -/
def whitePos (whiteW : ℚ) : ℚ → List String → List (String × ℚ)
  | _, [] => []
  | x0, note :: notes => (note, x0) :: whitePos whiteW (x0 + whiteW + 2) notes

/-- The elements the first loop appends, started at offset `x0`. -/
def whiteElems (whiteW whiteH : ℚ) (showLabels showCOnly : Bool) : ℚ → List String → Doc
  | _, [] => []
  | x0, note :: notes =>
    (if showLabels && (!showCOnly || (showCOnly && note.data.head? == some 'C')) then
      [whiteRect whiteW whiteH note x0, whiteLabel whiteW whiteH note x0]
    else [whiteRect whiteW whiteH note x0])
      ++ whiteElems whiteW whiteH showLabels showCOnly (x0 + whiteW + 2) notes

/-- The elements the second loop appends for the positions `ps`. -/
def blackElems (whiteW blackW blackH : ℚ) (showLabels showCOnly : Bool) :
    List (String × ℚ) → Doc
  | [] => []
  | p :: ps =>
    (match blackIdOf p.1 with
      | some blackId =>
        if showLabels && !showCOnly then
          [blackRect whiteW blackW blackH blackId p.2, blackLabel whiteW blackW blackH blackId p.2]
        else [blackRect whiteW blackW blackH blackId p.2]
      | none => [])
      ++ blackElems whiteW blackW blackH showLabels showCOnly ps

/-! ## Highlight state -/

/-- The call `document.getElementById(name)`: the first child with that id. -/
def getElementById (doc : Doc) (name : String) : Option Elem :=
  doc.find? fun e => e.id == name

/-- The call `key.setAttribute("fill", c)` for `key = document.getElementById(name)`:
the first child with that id gets the fill `c`. -/
def setFill : Doc → String → String → Doc
  | [], _, _ => []
  | e :: rest, name, c =>
    if e.id = name then { e with fill := c } :: rest else e :: setFill rest name c

/-- The function `highlightKey(noteName)` with the current value of `highlightColor`. -/
def highlightKey (highlightColor : String) (doc : Doc) (noteName : String) : Doc :=
  match getElementById doc noteName with
  | some _ => setFill doc noteName highlightColor
  | none => doc

/-- The function `resetKey(noteName)`. -/
def resetKey (doc : Doc) (noteName : String) : Doc :=
  match getElementById doc noteName with
  | none => doc
  | some key => setFill doc noteName (if includesHash key.id then "#111111" else "#D9D9D9")

/-- The function `resetAllKeys()` with the values read from the inputs `startingOctave` and
`octavesAmount`; its own loop over the octaves is the loop of
`generateWhiteNotes`. -/
def resetAllKeys (startOctave octavesAmount : Int) (doc : Doc) : Doc :=
  let currentWhiteNotes := generateWhiteNotes startOctave octavesAmount
  let doc := currentWhiteNotes.foldl resetKey doc
  currentWhiteNotes.foldl
    (fun d note =>
      match blackIdOf note with
      | some blackId => resetKey d blackId
      | none => d)
    doc

/-- The listener of the colour input: every rect whose fill is not its
default gets the new highlight colour. -/
def recolor (highlightColor : String) (doc : Doc) : Doc :=
  doc.map fun key =>
    if isRect key then
      let defaultColor := if !includesHash key.id then "#D9D9D9" else "#111111"
      if key.fill ≠ defaultColor then { key with fill := highlightColor } else key
    else key

/-- The default fill of a key, as `resetKey` computes it from the id. -/
def defaultFill (id : String) : String := if includesHash id then "#111111" else "#D9D9D9"

/-! ## Performance and timeline -/

/-- A note as delivered by the MIDI parser. -/
structure Note where
  name : String
  time : ℚ
  duration : ℚ
  velocity : ℚ
  deriving DecidableEq

/-- A track of the parsed file. -/
structure Track where
  notes : List Note
  deriving DecidableEq

/-- The parsed file; `duration` is the value of `midi.duration`. -/
structure Midi where
  tracks : List Track
  duration : ℚ
  deriving DecidableEq

/-- The `type` field of a visual event. -/
inductive EventType where
  | on
  | off
  deriving DecidableEq, Repr

/-- An entry `{ time, type, note }` of `visualEvents`. -/
structure VisualEvent where
  time : ℚ
  type : EventType
  note : String
  deriving DecidableEq

/-- The two events pushed for one note. -/
def noteEvents (note : Note) : List VisualEvent :=
  [{ time := note.time, type := EventType.on, note := note.name },
   { time := note.time + note.duration, type := EventType.off, note := note.name }]

/-- The array `visualEvents` before the sort. -/
def pushedEvents (midi : Midi) : List VisualEvent :=
  midi.tracks.flatMap fun track => track.notes.flatMap noteEvents

/-- The order the comparator `(a, b) => a.time - b.time` sorts by. -/
def byTime (a b : VisualEvent) : Prop := a.time ≤ b.time

instance : DecidableRel byTime := fun a b => inferInstanceAs (Decidable (a.time ≤ b.time))

instance : IsTotal VisualEvent byTime := ⟨fun a b => le_total a.time b.time⟩

instance : IsTrans VisualEvent byTime := ⟨fun _ _ _ h1 h2 => le_trans h1 h2⟩

/-- The array `visualEvents` after `sort((a, b) => a.time - b.time)`. -/
def visualEvents (midi : Midi) : List VisualEvent :=
  (pushedEvents midi).insertionSort byTime

/-- The body of the `while` loop of `generateFrames` applied to one event. -/
def applyEvent (highlightColor : String) (doc : Doc) (event : VisualEvent) : Doc :=
  match event.type with
  | EventType.on => highlightKey highlightColor doc event.note
  | EventType.off => resetKey doc event.note

/-- The document after the events `evs` have been applied in order. -/
def replay (highlightColor : String) (doc : Doc) (evs : List VisualEvent) : Doc :=
  evs.foldl (applyEvent highlightColor) doc

/-- The `while` loop of `generateFrames`: the document and `eventIndex` when
the loop exits. -/
def catchUp (events : List VisualEvent) (highlightColor : String) (currentTime : ℚ)
    (doc : Doc) (eventIndex : Nat) : Doc × Nat :=
  if h : eventIndex < events.length then
    if (events.get ⟨eventIndex, h⟩).time ≤ currentTime then
      catchUp events highlightColor currentTime
        (applyEvent highlightColor doc (events.get ⟨eventIndex, h⟩)) (eventIndex + 1)
    else (doc, eventIndex)
  else (doc, eventIndex)
termination_by events.length - eventIndex

/-! ## Frame export -/

/-- The method `s.padStart(targetLength, padChar)`. -/
def padStart (targetLength : Nat) (padChar : Char) (s : String) : String :=
  String.mk (List.replicate (targetLength - s.data.length) padChar ++ s.data)

/-- The archive name of frame `i`: `frame_` followed by
`String(i).padStart(5, '0')` and `.png`. -/
def frameName (i : Nat) : String := "frame_" ++ padStart 5 '0' (toString i) ++ ".png"

/-- The entries of the archive, in the order of their first insertion. -/
abbrev Zip (α : Type) := List (String × α)

/-- The call `zip.file(name, data)`: an entry of that name is replaced, a new name is
added at the end. -/
def zipFile {α : Type} (zip : Zip α) (name : String) (data : α) : Zip α :=
  if zip.any (fun p => p.1 == name) then
    zip.map fun p => if p.1 == name then (name, data) else p
  else zip ++ [(name, data)]

/-- The variables of the frame loop. -/
structure ExportLoop (α : Type) where
  doc : Doc
  eventIndex : Nat
  zip : Zip α
  frameCount : Nat

/-- The `for` loop of `generateFrames` over the frame indices still to do.
`capture i doc` is the result of `htmlToImage.toPng` in iteration `i`, `none`
when it throws; the loop then returns early with the document as it is. -/
def frameLoop {α : Type} (events : List VisualEvent) (highlightColor : String)
    (frameInterval : ℚ) (capture : Nat → Doc → Option α) :
    List Nat → ExportLoop α → Except Doc (ExportLoop α)
  | [], st => Except.ok st
  | i :: rest, st =>
    let currentTime := (i : ℚ) * frameInterval
    let p := catchUp events highlightColor currentTime st.doc st.eventIndex
    match capture i p.1 with
    | none => Except.error p.1
    | some dataUrl =>
      frameLoop events highlightColor frameInterval capture rest
        { doc := p.1, eventIndex := p.2, zip := zipFile st.zip (frameName i) dataUrl,
          frameCount := st.frameCount + 1 }

/-- The state of the page that the functions below read and write. -/
structure AppState where
  doc : Doc
  highlightColor : String
  synth : Option (List String)
  currentNote : String
  transportStarted : Bool
  scheduled : List VisualEvent
  startingOctave : Int
  octavesAmount : Int

/-- The function `stopMIDI()`: the transport is stopped and its schedule cancelled, the
synth (when there is one) is released and disposed, the display is set to
`None` and all keys are reset. -/
def stopMIDI (s : AppState) : AppState :=
  { s with
    transportStarted := false
    scheduled := []
    synth := none
    currentNote := "None"
    doc := resetAllKeys s.startingOctave s.octavesAmount s.doc }

/-- What `generateFrames` leaves: the page state and, when no capture failed,
the archive that is downloaded. -/
structure ExportResult (α : Type) where
  state : AppState
  download : Option (Zip α)

/-- The constant `frameInterval = 1 / fps`. -/
def frameInterval (fps : Int) : ℚ := 1 / (fps : ℚ)

/-- The number of frames `Math.ceil(totalDuration * fps)`. -/
def totalFrames (midi : Midi) (fps : Int) : Int := ⌈midi.duration * (fps : ℚ)⌉

/-- The function `generateFrames(midi)` with `fps` the value parsed from the input
`frameRate`. -/
def generateFrames {α : Type} (s : AppState) (midi : Midi) (fps : Int)
    (capture : Nat → Doc → Option α) : ExportResult α :=
  let s := stopMIDI s
  let events := visualEvents midi
  match frameLoop events s.highlightColor (frameInterval fps) capture
      (List.range (totalFrames midi fps).toNat)
      { doc := s.doc, eventIndex := 0, zip := [], frameCount := 0 } with
  | Except.error doc => { state := { s with doc := doc }, download := none }
  | Except.ok st =>
    { state := { s with doc := resetAllKeys s.startingOctave s.octavesAmount st.doc },
      download := some st.zip }

/-- The document and `eventIndex` at the capture of frame `i`, when the
captures of the earlier frames succeeded. -/
def frameState (events : List VisualEvent) (highlightColor : String) (frameInterval : ℚ)
    (doc : Doc) : Nat → Doc × Nat
  | 0 => catchUp events highlightColor ((0 : Nat) * frameInterval) doc 0
  | i + 1 =>
    catchUp events highlightColor (((i + 1 : Nat) : ℚ) * frameInterval)
      (frameState events highlightColor frameInterval doc i).1
      (frameState events highlightColor frameInterval doc i).2

/-- The document and `eventIndex` when iteration `k` of the frame loop
starts. -/
def preState (events : List VisualEvent) (highlightColor : String) (frameInterval : ℚ)
    (doc : Doc) : Nat → Doc × Nat
  | 0 => (doc, 0)
  | k + 1 => frameState events highlightColor frameInterval doc k

/-! ## Notions used in the statements -/

/-- The number a string of decimal digits stands for. -/
def decimalValue (cs : List Char) : Nat := cs.foldl (fun acc c => 10 * acc + (c.toNat - 48)) 0

/-- Every black key lies strictly between two adjacent white keys: the white
key it was drawn after (the one whose `blackIdOf` is its id) and the next one
in document order. -/
def BlackBetweenWhites (doc : Doc) : Prop :=
  ∀ b ∈ blackKeys doc, ∃ (i : Nat) (l r : Elem),
    (whiteKeys doc)[i]? = some l ∧ (whiteKeys doc)[i + 1]? = some r ∧
      blackIdOf l.id = some b.id ∧ l.x < b.x ∧ b.x < r.x

/-- The document with every fill blanked: what no highlight or reset changes. -/
def skeleton (doc : Doc) : Doc := doc.map fun e => { e with fill := "" }

/-- The documents that arise from the document `base` by calls of
`highlightKey` (with any highlight colour), `resetKey` and the colour
listener. -/
inductive Reachable (base : Doc) : Doc → Prop
  | built : Reachable base base
  | highlight (highlightColor name : String) {d : Doc} :
      Reachable base d → Reachable base (highlightKey highlightColor d name)
  | reset (name : String) {d : Doc} : Reachable base d → Reachable base (resetKey d name)
  | recolor (highlightColor : String) {d : Doc} :
      Reachable base d → Reachable base (recolor highlightColor d)

/-- Every rect whose id already occurs in `seen` or earlier in the document
carries its default fill. -/
def FirstOnly : List String → Doc → Prop
  | _, [] => True
  | seen, e :: rest =>
    (e.id ∈ seen → isRect e = true → e.fill = defaultFill e.id) ∧ FirstOnly (e.id :: seen) rest

/-- The key with identifier `k` carries the highlight fill. -/
def carriesHighlight (highlightColor : String) (doc : Doc) (k : String) : Prop :=
  ∃ key, getElementById doc k = some key ∧ key.fill = highlightColor

/-- The notes of a performance in the order in which their events are pushed:
track by track, note by note. -/
def allNotes (midi : Midi) : List Note := midi.tracks.flatMap fun track => track.notes

/-- Two notes of which `m` is pushed before `n`, when they are on the same key:
`m` has ended when `n` begins, or `n` ends strictly before `m` begins. -/
def Apart (m n : Note) : Prop :=
  m.name = n.name → m.time + m.duration ≤ n.time ∨ n.time + n.duration < m.time

/-- The fill of the element that `getElementById` finds. -/
def fillOf (doc : Doc) (k : String) : Option String := (getElementById doc k).map fun e => e.fill

/-! ## Example inputs -/

/-- An example page state: the keyboard of one octave from octave 4 on which
`C4` has been highlighted, with a synth allocated and one release pending. -/
def playingState : AppState :=
  { doc := highlightKey "#ff4dac" (buildKeyboard 20 100 12 60 false false 4 1).children "C4"
    highlightColor := "#ff4dac"
    synth := some ["C4"]
    currentNote := "C4"
    transportStarted := true
    scheduled := [{ time := 1, type := EventType.off, note := "C4" }]
    startingOctave := 4
    octavesAmount := 1 }

/-- An example performance of 2.5 seconds: two notes on `C4` that touch (the
first ends when the second begins) and a note on `D#4`. -/
def legatoMidi : Midi :=
  { tracks :=
      [{ notes :=
          [{ name := "C4", time := 0, duration := 1, velocity := 1 },
           { name := "C4", time := 1, duration := 1, velocity := 1 },
           { name := "D#4", time := 1 / 2, duration := 2, velocity := 1 }] }]
    duration := 5 / 2 }

/-- An example performance in which two notes on `C4` overlap: one sounds on
`[0, 2)`, the other on `[1, 3)`. -/
def overlapMidi : Midi :=
  { tracks :=
      [{ notes :=
          [{ name := "C4", time := 0, duration := 2, velocity := 1 },
           { name := "C4", time := 1, duration := 2, velocity := 1 }] }]
    duration := 3 }

/-- The capture that returns the document itself. -/
def snapshot : Nat → Doc → Option Doc := fun _ doc => some doc

/-! ## The fill of one key under a sequence of events -/

/-- The fill an event gives to its key. -/
def eventFill (highlightColor : String) (ev : VisualEvent) : String :=
  match ev.type with
  | EventType.on => highlightColor
  | EventType.off => defaultFill ev.note

/-- The effect of one event on the fill found under the id `k`. -/
def fillStep (highlightColor k : String) (f : Option String) (ev : VisualEvent) :
    Option String :=
  if ev.note = k then f.map fun _ => eventFill highlightColor ev else f

/-- The last event on the key `k` among `evs`. -/
def lastFor (k : String) (evs : List VisualEvent) : Option VisualEvent :=
  (evs.filter fun e => e.note = k).getLast?

/-! ## Lemmas on the keyboard -/

theorem foldl_whiteStep (whiteW whiteH : ℚ) (sl sc : Bool) (notes : List String) :
    ∀ st : WhiteLoop, notes.foldl (whiteStep whiteW whiteH sl sc) st =
      { x := st.x + notes.length * (whiteW + 2),
        svg := st.svg ++ whiteElems whiteW whiteH sl sc st.x notes,
        whitePositions := st.whitePositions ++ whitePos whiteW st.x notes } := by
  induction notes with
  | nil => intro st; simp [whiteElems, whitePos]
  | cons note notes ih =>
    intro st
    rw [List.foldl_cons, ih]
    have hx : st.x + whiteW + 2 + (notes.length : ℚ) * (whiteW + 2)
        = st.x + ((notes.length + 1 : ℕ) : ℚ) * (whiteW + 2) := by push_cast; ring
    by_cases hc : (sl && (!sc || (sc && note.data.head? == some 'C'))) = true
    · simp [whiteStep, whiteElems, whitePos, hc, hx]
    · simp [whiteStep, whiteElems, whitePos, hc, hx]

theorem foldl_blackStep (whiteW blackW blackH : ℚ) (sl sc : Bool) (ps : List (String × ℚ)) :
    ∀ svg : Doc, ps.foldl (blackStep whiteW blackW blackH sl sc) svg =
      svg ++ blackElems whiteW blackW blackH sl sc ps := by
  induction ps with
  | nil => intro svg; simp [blackElems]
  | cons p ps ih =>
    intro svg
    rw [List.foldl_cons, ih]
    cases hb : blackIdOf p.1 with
    | none => simp [blackStep, blackElems, hb]
    | some b =>
      by_cases hc : (sl && !sc) = true
      · simp [blackStep, blackElems, hb, hc]
      · simp [blackStep, blackElems, hb, hc]

theorem length_generateWhiteNotes (startOctave octavesAmount : Int) :
    (generateWhiteNotes startOctave octavesAmount).length = octavesAmount.toNat * 7 := by
  simp [generateWhiteNotes, List.length_flatMap, whiteNotesLetters, Function.comp_def]

theorem buildKeyboard_children (whiteW whiteH blackW blackH : ℚ) (sl sc : Bool)
    (startOctave octavesAmount : Int) :
    (buildKeyboard whiteW whiteH blackW blackH sl sc startOctave octavesAmount).children =
      whiteElems whiteW whiteH sl sc 0 (generateWhiteNotes startOctave octavesAmount) ++
        blackElems whiteW blackW blackH sl sc
          (whitePos whiteW 0 (generateWhiteNotes startOctave octavesAmount)) := by
  simp [buildKeyboard, whiteLoop, foldl_whiteStep, foldl_blackStep]

theorem buildKeyboard_width (whiteW whiteH blackW blackH : ℚ) (sl sc : Bool)
    (startOctave octavesAmount : Int) :
    (buildKeyboard whiteW whiteH blackW blackH sl sc startOctave octavesAmount).width =
      (octavesAmount.toNat : ℚ) * 7 * (whiteW + 2) := by
  simp [buildKeyboard, whiteLoop, foldl_whiteStep, length_generateWhiteNotes]

/-! ### Identifiers -/

theorem digitChar_ne_hash : ∀ d, d < 10 → Nat.digitChar d ≠ '#' := by decide

theorem toDigitsCore_no_hash (fuel : Nat) : ∀ (n : Nat) (ds : List Char), '#' ∉ ds →
    '#' ∉ Nat.toDigitsCore 10 fuel n ds := by
  induction fuel with
  | zero => intro n ds h; simpa [Nat.toDigitsCore] using h
  | succ fuel ih =>
    intro n ds h
    have hd : '#' ∉ Nat.digitChar (n % 10) :: ds := by
      simp only [List.mem_cons, not_or]
      exact ⟨fun e => digitChar_ne_hash _ (Nat.mod_lt _ (by decide)) e.symm, h⟩
    unfold Nat.toDigitsCore
    simp only
    split_ifs
    · exact hd
    · exact ih _ _ hd

theorem repr_no_hash (n : Nat) : '#' ∉ (Nat.repr n).data := by
  simp only [Nat.repr, Nat.toDigits, List.asString]
  exact toDigitsCore_no_hash _ _ _ (by simp)

theorem int_toString_no_hash (i : Int) : '#' ∉ (toString i).data := by
  cases i with
  | ofNat n => exact repr_no_hash n
  | negSucc n =>
    show '#' ∉ ("-" ++ Nat.repr (n + 1)).data
    rw [String.data_append]
    simp only [List.mem_append, not_or]
    exact ⟨by decide, repr_no_hash _⟩

theorem includesHash_whiteNote {startOctave octavesAmount : Int} {note : String}
    (h : note ∈ generateWhiteNotes startOctave octavesAmount) : includesHash note = false := by
  simp only [generateWhiteNotes, List.mem_flatMap, List.mem_range, List.mem_map] at h
  obtain ⟨k, -, letter, hl, rfl⟩ := h
  have hno := int_toString_no_hash (startOctave + (k : Int))
  have hlet : '#' ∉ letter.data := by
    simp only [whiteNotesLetters, List.mem_cons, List.mem_singleton, List.not_mem_nil,
      or_false] at hl
    rcases hl with rfl | rfl | rfl | rfl | rfl | rfl | rfl <;> decide
  simp only [includesHash, String.data_append, List.contains_eq_any_beq, List.any_append,
    Bool.or_eq_false_iff, List.any_eq_false, beq_iff_eq]
  exact ⟨fun c hc e => hlet (e ▸ hc), fun c hc e => hno (e ▸ hc)⟩

theorem includesHash_blackId {note blackId : String} (h : blackIdOf note = some blackId) :
    includesHash blackId = true := by
  unfold blackIdOf at h
  split at h
  · rename_i letter octave _ _
    split at h
    · rename_i sharp hs
      simp only [Option.some.injEq] at h
      subst h
      have hsharp : '#' ∈ sharp.data := by
        unfold blackNotesMap at hs
        split_ifs at hs <;> simp only [Option.some.injEq] at hs <;> subst hs <;> decide
      simp only [includesHash, String.data_append, List.contains_eq_any_beq, List.any_append,
        Bool.or_eq_true, List.any_eq_true, beq_iff_eq]
      exact Or.inl ⟨'#', hsharp, rfl⟩
    · exact absurd h (by simp)
  · exact absurd h (by simp)

/-! ### Elements of the keyboard -/

theorem mem_whitePos {whiteW : ℚ} {p : String × ℚ} :
    ∀ {x0 : ℚ} {notes : List String}, p ∈ whitePos whiteW x0 notes → p.1 ∈ notes := by
  intro x0 notes
  induction notes generalizing x0 with
  | nil => intro h; simp [whitePos] at h
  | cons note notes ih =>
    intro h
    simp only [whitePos, List.mem_cons] at h
    rcases h with rfl | h
    · simp
    · exact List.mem_cons_of_mem _ (ih h)

theorem mem_whiteElems {whiteW whiteH : ℚ} {sl sc : Bool} {e : Elem} :
    ∀ {x0 : ℚ} {notes : List String}, e ∈ whiteElems whiteW whiteH sl sc x0 notes →
      ∃ note ∈ notes, ∃ x, e = whiteRect whiteW whiteH note x ∨
        e = whiteLabel whiteW whiteH note x := by
  intro x0 notes
  induction notes generalizing x0 with
  | nil => intro h; simp [whiteElems] at h
  | cons note notes ih =>
    intro h
    simp only [whiteElems, List.mem_append] at h
    rcases h with h | h
    · refine ⟨note, List.mem_cons_self _ _, x0, ?_⟩
      split_ifs at h
      · simp only [List.mem_cons, List.mem_singleton, List.not_mem_nil, or_false] at h
        exact h
      · simp only [List.mem_singleton] at h
        exact Or.inl h
    · obtain ⟨n, hn, x, hx⟩ := ih h
      exact ⟨n, List.mem_cons_of_mem _ hn, x, hx⟩

theorem mem_blackElems {whiteW blackW blackH : ℚ} {sl sc : Bool} {e : Elem} :
    ∀ {ps : List (String × ℚ)}, e ∈ blackElems whiteW blackW blackH sl sc ps →
      ∃ p ∈ ps, ∃ blackId, blackIdOf p.1 = some blackId ∧
        (e = blackRect whiteW blackW blackH blackId p.2 ∨
          e = blackLabel whiteW blackW blackH blackId p.2) := by
  intro ps
  induction ps with
  | nil => intro h; simp [blackElems] at h
  | cons p ps ih =>
    intro h
    simp only [blackElems, List.mem_append] at h
    rcases h with h | h
    · cases hb : blackIdOf p.1 with
      | none => simp [hb] at h
      | some b =>
        refine ⟨p, List.mem_cons_self _ _, b, hb, ?_⟩
        simp only [hb] at h
        split_ifs at h
        · simp only [List.mem_cons, List.mem_singleton, List.not_mem_nil, or_false] at h
          exact h
        · simp only [List.mem_singleton] at h
          exact Or.inl h
    · obtain ⟨q, hq, b, hb, hx⟩ := ih h
      exact ⟨q, List.mem_cons_of_mem _ hq, b, hb, hx⟩

/-- Every rect of a freshly built keyboard carries its default fill. -/
theorem buildKeyboard_fill (whiteW whiteH blackW blackH : ℚ) (sl sc : Bool)
    (startOctave octavesAmount : Int) (e : Elem)
    (he : e ∈ (buildKeyboard whiteW whiteH blackW blackH sl sc startOctave
      octavesAmount).children) (hr : isRect e = true) : e.fill = defaultFill e.id := by
  rw [buildKeyboard_children, List.mem_append] at he
  rcases he with he | he
  · obtain ⟨note, hn, x, rfl | rfl⟩ := mem_whiteElems he
    · simp [whiteRect, defaultFill, includesHash_whiteNote hn]
    · simp [isRect, whiteLabel] at hr
  · obtain ⟨p, hp, b, hb, rfl | rfl⟩ := mem_blackElems he
    · simp [blackRect, defaultFill, includesHash_blackId hb]
    · simp [isRect, blackLabel] at hr

@[simp] theorem isRect_whiteRect (whiteW whiteH : ℚ) (note : String) (x : ℚ) :
    isRect (whiteRect whiteW whiteH note x) = true := rfl

@[simp] theorem isRect_whiteLabel (whiteW whiteH : ℚ) (note : String) (x : ℚ) :
    isRect (whiteLabel whiteW whiteH note x) = false := rfl

@[simp] theorem isRect_blackRect (whiteW blackW blackH : ℚ) (b : String) (x : ℚ) :
    isRect (blackRect whiteW blackW blackH b x) = true := rfl

@[simp] theorem isRect_blackLabel (whiteW blackW blackH : ℚ) (b : String) (x : ℚ) :
    isRect (blackLabel whiteW blackW blackH b x) = false := rfl

@[simp] theorem id_whiteRect (whiteW whiteH : ℚ) (note : String) (x : ℚ) :
    (whiteRect whiteW whiteH note x).id = note := rfl

@[simp] theorem id_blackRect (whiteW blackW blackH : ℚ) (b : String) (x : ℚ) :
    (blackRect whiteW blackW blackH b x).id = b := rfl

theorem whiteKeys_whiteElems (whiteW whiteH : ℚ) (sl sc : Bool) :
    ∀ (x0 : ℚ) (notes : List String), (∀ note ∈ notes, includesHash note = false) →
      whiteKeys (whiteElems whiteW whiteH sl sc x0 notes) =
        (whitePos whiteW x0 notes).map fun p => whiteRect whiteW whiteH p.1 p.2 := by
  intro x0 notes
  induction notes generalizing x0 with
  | nil => intro _; simp [whiteElems, whitePos, whiteKeys]
  | cons note notes ih =>
    intro h
    have hn := h note (List.mem_cons_self _ _)
    have ih2 := ih (x0 + whiteW + 2) fun n hn2 => h n (List.mem_cons_of_mem _ hn2)
    unfold whiteKeys at ih2 ⊢
    simp only [whiteElems, whitePos, List.map_cons, List.filter_append, ih2]
    split_ifs <;> simp [List.filter_cons, hn]

theorem blackKeys_whiteElems (whiteW whiteH : ℚ) (sl sc : Bool) :
    ∀ (x0 : ℚ) (notes : List String), (∀ note ∈ notes, includesHash note = false) →
      blackKeys (whiteElems whiteW whiteH sl sc x0 notes) = [] := by
  intro x0 notes
  induction notes generalizing x0 with
  | nil => intro _; simp [whiteElems, blackKeys]
  | cons note notes ih =>
    intro h
    have hn := h note (List.mem_cons_self _ _)
    have ih2 := ih (x0 + whiteW + 2) fun n hn2 => h n (List.mem_cons_of_mem _ hn2)
    unfold blackKeys at ih2 ⊢
    simp only [whiteElems, List.filter_append, ih2]
    split_ifs <;> simp [List.filter_cons, hn]

theorem whiteKeys_blackElems (whiteW blackW blackH : ℚ) (sl sc : Bool) :
    ∀ ps : List (String × ℚ), whiteKeys (blackElems whiteW blackW blackH sl sc ps) = [] := by
  intro ps
  induction ps with
  | nil => simp [blackElems, whiteKeys]
  | cons p ps ih =>
    unfold whiteKeys at ih ⊢
    simp only [blackElems, List.filter_append, ih]
    cases hb : blackIdOf p.1 with
    | none => simp
    | some b =>
      have hh := includesHash_blackId hb
      simp only
      split_ifs <;> simp [List.filter_cons, hh]

theorem blackKeys_blackElems (whiteW blackW blackH : ℚ) (sl sc : Bool) :
    ∀ ps : List (String × ℚ), blackKeys (blackElems whiteW blackW blackH sl sc ps) =
      ps.filterMap fun p =>
        (blackIdOf p.1).map fun blackId => blackRect whiteW blackW blackH blackId p.2 := by
  intro ps
  induction ps with
  | nil => simp [blackElems, blackKeys]
  | cons p ps ih =>
    unfold blackKeys at ih ⊢
    simp only [blackElems, List.filter_append, ih]
    cases hb : blackIdOf p.1 with
    | none => simp [List.filterMap_cons, hb]
    | some b =>
      have hh := includesHash_blackId hb
      simp only [List.filterMap_cons, hb, Option.map_some']
      split_ifs <;> simp [List.filter_cons, hh]

/-- The white keys of a built keyboard, in document order. -/
theorem whiteKeys_buildKeyboard (whiteW whiteH blackW blackH : ℚ) (sl sc : Bool)
    (startOctave octavesAmount : Int) :
    whiteKeys (buildKeyboard whiteW whiteH blackW blackH sl sc startOctave
      octavesAmount).children =
      (whitePos whiteW 0 (generateWhiteNotes startOctave octavesAmount)).map
        fun p => whiteRect whiteW whiteH p.1 p.2 := by
  rw [buildKeyboard_children]
  have h1 := whiteKeys_whiteElems whiteW whiteH sl sc 0
    (generateWhiteNotes startOctave octavesAmount) fun _ h => includesHash_whiteNote h
  have h2 := whiteKeys_blackElems whiteW blackW blackH sl sc
    (whitePos whiteW 0 (generateWhiteNotes startOctave octavesAmount))
  unfold whiteKeys at h1 h2 ⊢
  rw [List.filter_append, h1, h2, List.append_nil]

/-- The black keys of a built keyboard, in document order. -/
theorem blackKeys_buildKeyboard (whiteW whiteH blackW blackH : ℚ) (sl sc : Bool)
    (startOctave octavesAmount : Int) :
    blackKeys (buildKeyboard whiteW whiteH blackW blackH sl sc startOctave
      octavesAmount).children =
      (whitePos whiteW 0 (generateWhiteNotes startOctave octavesAmount)).filterMap fun p =>
        (blackIdOf p.1).map fun blackId => blackRect whiteW blackW blackH blackId p.2 := by
  rw [buildKeyboard_children]
  have h1 := blackKeys_whiteElems whiteW whiteH sl sc 0
    (generateWhiteNotes startOctave octavesAmount) fun _ h => includesHash_whiteNote h
  have h2 := blackKeys_blackElems whiteW blackW blackH sl sc
    (whitePos whiteW 0 (generateWhiteNotes startOctave octavesAmount))
  unfold blackKeys at h1 h2 ⊢
  rw [List.filter_append, h1, h2, List.nil_append]

theorem length_whitePos (whiteW : ℚ) :
    ∀ (x0 : ℚ) (notes : List String), (whitePos whiteW x0 notes).length = notes.length := by
  intro x0 notes
  induction notes generalizing x0 with
  | nil => rfl
  | cons note notes ih => simp [whitePos, ih]

theorem map_fst_whitePos (whiteW : ℚ) :
    ∀ (x0 : ℚ) (notes : List String), (whitePos whiteW x0 notes).map Prod.fst = notes := by
  intro x0 notes
  induction notes generalizing x0 with
  | nil => rfl
  | cons note notes ih => simp [whitePos, ih]

/-- The `i`-th white key sits at offset `x0 + i * (whiteW + 2)`. -/
theorem whitePos_getElem? (whiteW : ℚ) :
    ∀ (notes : List String) (x0 : ℚ) (i : Nat),
      (whitePos whiteW x0 notes)[i]? =
        notes[i]?.map fun note => (note, x0 + (i : ℚ) * (whiteW + 2)) := by
  intro notes
  induction notes with
  | nil => intro x0 i; simp [whitePos]
  | cons note notes ih =>
    intro x0 i
    cases i with
    | zero => simp [whitePos]
    | succ i =>
      simp only [whitePos, List.getElem?_cons_succ, ih]
      cases notes[i]? with
      | none => rfl
      | some n =>
        simp only [Option.map_some', Option.some.injEq, Prod.mk.injEq, true_and]
        push_cast
        ring

theorem generateWhiteNotes_3_5 : generateWhiteNotes 3 5 =
    ["C3", "D3", "E3", "F3", "G3", "A3", "B3", "C4", "D4", "E4", "F4", "G4", "A4", "B4",
     "C5", "D5", "E5", "F5", "G5", "A5", "B5", "C6", "D6", "E6", "F6", "G6", "A6", "B6",
     "C7", "D7", "E7", "F7", "G7", "A7", "B7"] := by decide

/-! ## C7: total width -/

/-- C7, as stated, fails: with `whiteWidth = 20` and five octaves the code
sets the width 770, the formula `octaveCount * 7 * (whiteWidth + gap) - gap`
gives 768. -/
theorem C7_width_counterexample :
    (buildKeyboard 20 100 12 60 false false 3 5).width = 770 ∧
      (buildKeyboard 20 100 12 60 false false 3 5).width ≠ 5 * 7 * (20 + gap) - gap := by
  rw [buildKeyboard_width]
  have h5 : Int.toNat 5 = 5 := rfl
  rw [h5]
  norm_num [gap]

/-- C7, amended: the width and the viewBox width that `buildKeyboard` sets are
`octaveCount * 7 * (whiteWidth + gap)`: the gap after the last white key is
part of the width. -/
theorem C7_width (whiteW whiteH blackW blackH : ℚ) (sl sc : Bool) (startOctave : Int)
    (octaveCount : Nat) :
    (buildKeyboard whiteW whiteH blackW blackH sl sc startOctave octaveCount).width =
        (octaveCount : ℚ) * 7 * (whiteW + gap) ∧
      (buildKeyboard whiteW whiteH blackW blackH sl sc startOctave octaveCount).viewBox =
        (0, 0, (octaveCount : ℚ) * 7 * (whiteW + gap), whiteH) := by
  have h := buildKeyboard_width whiteW whiteH blackW blackH sl sc startOctave octaveCount
  refine ⟨by simpa [gap] using h, ?_⟩
  have hv : (buildKeyboard whiteW whiteH blackW blackH sl sc startOctave octaveCount).viewBox =
      (0, 0, (buildKeyboard whiteW whiteH blackW blackH sl sc startOctave octaveCount).width,
        whiteH) := rfl
  rw [hv, h]
  simp [gap]

/-! ## C6: the keyboard of five octaves from octave 3 -/

/-- C6, as stated, fails: with `whiteWidth = 10` and `blackWidth = 20` the
black key `C#3` is drawn at `x = 0`, which is not to the right of any white
key. -/
theorem C6_between_counterexample :
    ¬ BlackBetweenWhites (buildKeyboard 10 50 20 30 false false 3 5).children := by
  intro h
  have hb : blackRect 10 20 30 "C#3" 0 ∈
      blackKeys (buildKeyboard 10 50 20 30 false false 3 5).children := by
    rw [blackKeys_buildKeyboard, generateWhiteNotes_3_5, List.mem_filterMap]
    refine ⟨("C3", 0), by simp [whitePos], ?_⟩
    have : blackIdOf "C3" = some "C#3" := by decide
    simp [this]
  obtain ⟨i, l, r, hl, -, -, hlt, -⟩ := h _ hb
  rw [whiteKeys_buildKeyboard, List.getElem?_map, whitePos_getElem?] at hl
  cases hn : (generateWhiteNotes 3 5)[i]? with
  | none => simp [hn] at hl
  | some n =>
    simp only [hn, Option.map_some', Option.some.injEq] at hl
    subst hl
    simp only [whiteRect, blackRect] at hlt
    have hi : (0 : ℚ) ≤ (i : ℚ) := Nat.cast_nonneg i
    nlinarith

/-- C6, amended: for `startOctave = 3`, `octaveCount = 5`, positive
`blackWidth` and `blackWidth < 2 * whiteWidth` (any heights, any label
options) there are exactly 35 white keys and 25 black keys, and every black
key lies strictly between the white key to its left and the white key to its
right. -/
theorem C6_keyboard (whiteW whiteH blackW blackH : ℚ) (sl sc : Bool) (hB : 0 < blackW)
    (hlt : blackW < 2 * whiteW) :
    (whiteKeys (buildKeyboard whiteW whiteH blackW blackH sl sc 3 5).children).length = 35 ∧
      (blackKeys (buildKeyboard whiteW whiteH blackW blackH sl sc 3 5).children).length = 25 ∧
      BlackBetweenWhites (buildKeyboard whiteW whiteH blackW blackH sl sc 3 5).children := by
  refine ⟨?_, ?_, ?_⟩
  · rw [whiteKeys_buildKeyboard, List.length_map, length_whitePos, generateWhiteNotes_3_5]
    rfl
  · rw [blackKeys_buildKeyboard]
    have hlen : ∀ (ps : List (String × ℚ)),
        (ps.filterMap fun p =>
          (blackIdOf p.1).map fun b => blackRect whiteW blackW blackH b p.2).length =
          ((ps.map Prod.fst).filterMap blackIdOf).length := by
      intro ps
      induction ps with
      | nil => rfl
      | cons p ps ih =>
        cases hb : blackIdOf p.1 <;> simp [List.filterMap_cons, hb, ih]
    rw [hlen, map_fst_whitePos, generateWhiteNotes_3_5]
    decide
  · intro b hb
    rw [blackKeys_buildKeyboard, List.mem_filterMap] at hb
    obtain ⟨p, hp, hpb⟩ := hb
    obtain ⟨i, hi⟩ := List.getElem?_of_mem hp
    rw [whitePos_getElem?] at hi
    cases hn : (generateWhiteNotes 3 5)[i]? with
    | none => simp [hn] at hi
    | some n =>
      simp only [hn, Option.map_some', Option.some.injEq] at hi
      subst hi
      cases hbid : blackIdOf n with
      | none => simp [hbid] at hpb
      | some bid =>
        simp only [hbid, Option.map_some', Option.some.injEq] at hpb
        subst hpb
        have hnext : ∃ m, (generateWhiteNotes 3 5)[i + 1]? = some m := by
          have hall : ∀ j, j < 35 → ∀ n, (generateWhiteNotes 3 5)[j]? = some n →
              blackIdOf n ≠ none → ((generateWhiteNotes 3 5)[j + 1]?).isSome = true := by
            rw [generateWhiteNotes_3_5]
            decide
          have hi35 : i < 35 := by
            have := (List.getElem?_eq_some_iff.mp hn).1
            rw [generateWhiteNotes_3_5] at this
            simpa using this
          have := hall i hi35 n hn (by simp [hbid])
          exact Option.isSome_iff_exists.mp this
        obtain ⟨m, hm⟩ := hnext
        refine ⟨i, whiteRect whiteW whiteH n (0 + (i : ℚ) * (whiteW + 2)),
          whiteRect whiteW whiteH m (0 + ((i + 1 : Nat) : ℚ) * (whiteW + 2)), ?_, ?_, ?_, ?_, ?_⟩
        · rw [whiteKeys_buildKeyboard, List.getElem?_map, whitePos_getElem?, hn]
          rfl
        · rw [whiteKeys_buildKeyboard, List.getElem?_map, whitePos_getElem?, hm]
          rfl
        · simpa using hbid
        · simp only [whiteRect, blackRect]
          linarith
        · simp only [whiteRect, blackRect]
          push_cast
          linarith

/-- Witness of C6 at `whiteWidth = 10`, `blackWidth = 6`. -/
theorem C6_keyboard_witness :
    (0 : ℚ) < 6 ∧ (6 : ℚ) < 2 * 10 ∧
      (whiteKeys (buildKeyboard 10 50 6 30 true false 3 5).children).length = 35 ∧
      (blackKeys (buildKeyboard 10 50 6 30 true false 3 5).children).length = 25 ∧
      BlackBetweenWhites (buildKeyboard 10 50 6 30 true false 3 5).children :=
  ⟨by norm_num, by norm_num, C6_keyboard 10 50 6 30 true false (by norm_num) (by norm_num)⟩

/-! ## C10: identifiers of the black keys -/

/-- C10 fails on the code: the black key drawn after the white key `C10` gets
the id `C#0`, not `C#10`, and the keyboard of the octaves -1, 0, 1 has two
black keys with the id `C#1`. -/
theorem C10_black_id_last_char :
    blackIdOf "C10" = some "C#0" ∧
      (blackKeys (buildKeyboard 10 50 6 30 false false 10 1).children).map (fun e => e.id) =
        ["C#0", "D#0", "F#0", "G#0", "A#0"] ∧
      blackIdOf "C-1" = some "C#1" ∧ blackIdOf "C1" = some "C#1" ∧
      ¬ ((buildKeyboard 10 50 6 30 false false (-1) 3).children.map fun e => e.id).Nodup := by
  refine ⟨by decide, ?_, by decide, by decide, ?_⟩
  · rw [blackKeys_buildKeyboard]
    have h : generateWhiteNotes 10 1 = ["C10", "D10", "E10", "F10", "G10", "A10", "B10"] := by
      decide
    rw [h]
    simp only [whitePos, List.filterMap_cons, List.filterMap_nil]
    have h1 : blackIdOf "C10" = some "C#0" := by decide
    have h2 : blackIdOf "D10" = some "D#0" := by decide
    have h3 : blackIdOf "E10" = none := by decide
    have h4 : blackIdOf "F10" = some "F#0" := by decide
    have h5 : blackIdOf "G10" = some "G#0" := by decide
    have h6 : blackIdOf "A10" = some "A#0" := by decide
    have h7 : blackIdOf "B10" = none := by decide
    simp [h1, h2, h3, h4, h5, h6, h7]
  · have h : ((buildKeyboard 10 50 6 30 false false (-1) 3).children.map fun e => e.id) =
        ["C-1", "D-1", "E-1", "F-1", "G-1", "A-1", "B-1", "C0", "D0", "E0", "F0", "G0", "A0",
         "B0", "C1", "D1", "E1", "F1", "G1", "A1", "B1", "C#1", "D#1", "F#1", "G#1", "A#1",
         "C#0", "D#0", "F#0", "G#0", "A#0", "C#1", "D#1", "F#1", "G#1", "A#1"] := by
      decide
    rw [h]
    decide

/-! ## Decimal strings and frame names -/

theorem toDigitsCore_step (fuel n : Nat) (ds : List Char) :
    Nat.toDigitsCore 10 (fuel + 1) n ds =
      if n / 10 = 0 then Nat.digitChar (n % 10) :: ds
      else Nat.toDigitsCore 10 fuel (n / 10) (Nat.digitChar (n % 10) :: ds) := by
  simp only [Nat.toDigitsCore]

theorem toDigitsCore_eq : ∀ (n fuel : Nat) (ds : List Char), n < fuel →
    Nat.toDigitsCore 10 fuel n ds = Nat.toDigits 10 n ++ ds := by
  intro n
  induction n using Nat.strong_induction_on with
  | _ n ih =>
    intro fuel ds hf
    obtain ⟨f, rfl⟩ : ∃ f, fuel = f + 1 := ⟨fuel - 1, by omega⟩
    unfold Nat.toDigits
    rw [toDigitsCore_step, toDigitsCore_step]
    by_cases h0 : n / 10 = 0
    · simp [h0]
    · have hlt : n / 10 < n := by omega
      rw [if_neg h0, if_neg h0, ih _ hlt f _ (by omega), ih _ hlt n _ hlt]
      simp

theorem toDigits_lt_ten {n : Nat} (h : n < 10) : Nat.toDigits 10 n = [Nat.digitChar n] := by
  unfold Nat.toDigits
  rw [toDigitsCore_step, if_pos (by omega), Nat.mod_eq_of_lt h]

theorem toDigits_ge_ten {n : Nat} (h : 10 ≤ n) :
    Nat.toDigits 10 n = Nat.toDigits 10 (n / 10) ++ [Nat.digitChar (n % 10)] := by
  conv_lhs => unfold Nat.toDigits
  rw [toDigitsCore_step, if_neg (by omega), toDigitsCore_eq _ _ _ (by omega)]

theorem digitChar_toNat : ∀ d, d < 10 → (Nat.digitChar d).toNat - 48 = d := by decide

theorem decimalValue_toDigits : ∀ n : Nat, decimalValue (Nat.toDigits 10 n) = n := by
  intro n
  induction n using Nat.strong_induction_on with
  | _ n ih =>
    by_cases h : n < 10
    · rw [toDigits_lt_ten h]
      simp [decimalValue, digitChar_toNat n h]
    · rw [toDigits_ge_ten (by omega)]
      have := ih (n / 10) (by omega)
      unfold decimalValue at this ⊢
      rw [List.foldl_append, this]
      simp only [List.foldl_cons, List.foldl_nil]
      rw [digitChar_toNat _ (Nat.mod_lt _ (by decide))]
      omega

theorem toDigits_ne_nil (n : Nat) : Nat.toDigits 10 n ≠ [] := by
  by_cases h : n < 10
  · rw [toDigits_lt_ten h]; simp
  · rw [toDigits_ge_ten (by omega)]; simp

theorem toDigits_small {n : Nat} (h : n < 100000) :
    List.replicate (5 - (Nat.toDigits 10 n).length) '0' ++ Nat.toDigits 10 n =
      [Nat.digitChar (n / 10000), Nat.digitChar (n / 1000 % 10), Nat.digitChar (n / 100 % 10),
       Nat.digitChar (n / 10 % 10), Nat.digitChar (n % 10)] := by
  have hz : Nat.digitChar 0 = '0' := rfl
  by_cases h1 : n < 10
  · rw [toDigits_lt_ten h1]
    have e1 : n / 10000 = 0 := by omega
    have e2 : n / 1000 % 10 = 0 := by omega
    have e3 : n / 100 % 10 = 0 := by omega
    have e4 : n / 10 % 10 = 0 := by omega
    have e5 : n % 10 = n := by omega
    simp [e1, e2, e3, e4, e5, hz, List.replicate]
  · rw [toDigits_ge_ten (by omega)]
    by_cases h2 : n / 10 < 10
    · rw [toDigits_lt_ten h2]
      have e1 : n / 10000 = 0 := by omega
      have e2 : n / 1000 % 10 = 0 := by omega
      have e3 : n / 100 % 10 = 0 := by omega
      have e4 : n / 10 % 10 = n / 10 := by omega
      simp [e1, e2, e3, e4, hz, List.replicate]
    · rw [toDigits_ge_ten (by omega)]
      by_cases h3 : n / 10 / 10 < 10
      · rw [toDigits_lt_ten h3]
        have e1 : n / 10000 = 0 := by omega
        have e2 : n / 1000 % 10 = 0 := by omega
        have e3 : n / 100 % 10 = n / 10 / 10 := by omega
        simp [e1, e2, e3, hz, List.replicate]
      · rw [toDigits_ge_ten (by omega)]
        by_cases h4 : n / 10 / 10 / 10 < 10
        · rw [toDigits_lt_ten h4]
          have e1 : n / 10000 = 0 := by omega
          have e2 : n / 1000 % 10 = n / 10 / 10 / 10 := by omega
          have e3 : n / 100 % 10 = n / 10 / 10 % 10 := by omega
          simp [e1, e2, e3, hz, List.replicate]
        · rw [toDigits_ge_ten (by omega)]
          have h5 : n / 10 / 10 / 10 / 10 < 10 := by omega
          rw [toDigits_lt_ten h5]
          have e1 : n / 10000 = n / 10 / 10 / 10 / 10 := by omega
          have e2 : n / 1000 % 10 = n / 10 / 10 / 10 % 10 := by omega
          have e3 : n / 100 % 10 = n / 10 / 10 % 10 := by omega
          simp [e1, e2, e3, List.replicate]

theorem toDigits_large {n : Nat} (h : 100000 ≤ n) : 6 ≤ (Nat.toDigits 10 n).length := by
  rw [toDigits_ge_ten (by omega), toDigits_ge_ten (by omega), toDigits_ge_ten (by omega),
    toDigits_ge_ten (by omega), toDigits_ge_ten (by omega)]
  have := List.length_pos.mpr (toDigits_ne_nil (n / 10 / 10 / 10 / 10 / 10))
  simp only [List.length_append, List.length_singleton]
  omega

theorem frameName_data (n : Nat) :
    (frameName n).data =
      "frame_".data ++
        (List.replicate (5 - (Nat.toDigits 10 n).length) '0' ++ Nat.toDigits 10 n) ++
          ".png".data := by
  simp only [frameName, padStart, String.data_append]
  rfl

theorem frameName_data_small {n : Nat} (h : n < 100000) :
    (frameName n).data =
      ['f', 'r', 'a', 'm', 'e', '_', Nat.digitChar (n / 10000), Nat.digitChar (n / 1000 % 10),
       Nat.digitChar (n / 100 % 10), Nat.digitChar (n / 10 % 10), Nat.digitChar (n % 10),
       '.', 'p', 'n', 'g'] := by
  rw [frameName_data, toDigits_small h]
  rfl

theorem frameName_data_large {n : Nat} (h : 100000 ≤ n) :
    (frameName n).data = "frame_".data ++ Nat.toDigits 10 n ++ ".png".data := by
  rw [frameName_data]
  have h6 := toDigits_large h
  have h0 : 5 - (Nat.toDigits 10 n).length = 0 := by omega
  rw [h0]
  rfl

theorem digitChar_injective : ∀ a, a < 10 → ∀ b, b < 10 →
    Nat.digitChar a = Nat.digitChar b → a = b := by decide

theorem digitChar_lt : ∀ a, a < 10 → ∀ b, b < 10 → a < b →
    Nat.digitChar a < Nat.digitChar b := by decide

/-- Distinct frame indices have distinct archive names. -/
theorem frameName_injective : Function.Injective frameName := by
  intro i j h
  have hd : (frameName i).data = (frameName j).data := by rw [h]
  by_cases hi : i < 100000
  · by_cases hj : j < 100000
    · rw [frameName_data_small hi, frameName_data_small hj] at hd
      simp only [List.cons.injEq, true_and, and_true] at hd
      obtain ⟨h4, h3, h2, h1, h0⟩ := hd
      have e4 := digitChar_injective _ (by omega) _ (by omega) h4
      have e3 := digitChar_injective _ (by omega) _ (by omega) h3
      have e2 := digitChar_injective _ (by omega) _ (by omega) h2
      have e1 := digitChar_injective _ (by omega) _ (by omega) h1
      have e0 := digitChar_injective _ (by omega) _ (by omega) h0
      omega
    · have hl := congrArg List.length hd
      rw [frameName_data_small hi, frameName_data_large (by omega)] at hl
      have := toDigits_large (n := j) (by omega)
      simp at hl
      omega
  · by_cases hj : j < 100000
    · have hl := congrArg List.length hd
      rw [frameName_data_small hj, frameName_data_large (by omega)] at hl
      have := toDigits_large (n := i) (by omega)
      simp at hl
      omega
    · rw [frameName_data_large (by omega), frameName_data_large (by omega)] at hd
      have := List.append_cancel_left (List.append_cancel_right hd)
      have hv := congrArg decimalValue this
      rwa [decimalValue_toDigits, decimalValue_toDigits] at hv

theorem cons_lt_cons_same (c : Char) {as bs : List Char} (h : as < bs) : c :: as < c :: bs :=
  List.Lex.cons h

/-! ## C5: order of the frame names -/

/-- C5, as stated, fails: an export of 2000 seconds at 60 frames per second
has the frames 99999 and 100000; their names have different lengths (15 and
16 characters) and `frame_99999.png` is not smaller than `frame_100000.png`. -/
theorem C5_order_counterexample :
    (100000 : Int) < totalFrames { tracks := [], duration := 2000 } 60 ∧
      (99999 : Nat) < 100000 ∧
      (frameName 99999).length ≠ (frameName 100000).length ∧
      ¬ frameName 99999 < frameName 100000 := by
  refine ⟨?_, by decide, by decide, ?_⟩
  · have h : totalFrames { tracks := [], duration := 2000 } 60 = 120000 := by
      simp only [totalFrames]
      rw [Int.ceil_eq_iff]
      norm_num
    rw [h]
    decide
  · rw [String.lt_iff_toList_lt]
    decide

/-- C5, amended: for two frame indices `i < j` below 100000 the archive names
have the same length and the name of frame `i` is strictly smaller in
lexicographic order. -/
theorem C5_frame_name_order (i j : Nat) (hij : i < j) (hj : j < 100000) :
    (frameName i).length = (frameName j).length ∧ frameName i < frameName j := by
  have hi : i < 100000 := by omega
  constructor
  · show (frameName i).data.length = (frameName j).data.length
    rw [frameName_data_small hi, frameName_data_small hj]
    rfl
  · rw [String.lt_iff_toList_lt]
    show (frameName i).data < (frameName j).data
    rw [frameName_data_small hi, frameName_data_small hj]
    iterate 6 apply cons_lt_cons_same
    by_cases h4 : i / 10000 = j / 10000
    · rw [h4]
      apply cons_lt_cons_same
      by_cases h3 : i / 1000 % 10 = j / 1000 % 10
      · rw [h3]
        apply cons_lt_cons_same
        by_cases h2 : i / 100 % 10 = j / 100 % 10
        · rw [h2]
          apply cons_lt_cons_same
          by_cases h1 : i / 10 % 10 = j / 10 % 10
          · rw [h1]
            apply cons_lt_cons_same
            exact List.Lex.rel (digitChar_lt _ (by omega) _ (by omega) (by omega))
          · exact List.Lex.rel (digitChar_lt _ (by omega) _ (by omega) (by omega))
        · exact List.Lex.rel (digitChar_lt _ (by omega) _ (by omega) (by omega))
      · exact List.Lex.rel (digitChar_lt _ (by omega) _ (by omega) (by omega))
    · exact List.Lex.rel (digitChar_lt _ (by omega) _ (by omega) (by omega))

/-- Witness of C5 at the frames 9 and 10. -/
theorem C5_frame_name_order_witness :
    (9 : Nat) < 10 ∧ (10 : Nat) < 100000 ∧
      (frameName 9).length = (frameName 10).length ∧ frameName 9 < frameName 10 :=
  ⟨by decide, by decide, C5_frame_name_order 9 10 (by decide) (by decide)⟩

/-! ## C3: the timeline -/

theorem sorted_visualEvents (midi : Midi) : (visualEvents midi).Sorted byTime :=
  List.sorted_insertionSort byTime _

theorem perm_visualEvents (midi : Midi) : (visualEvents midi).Perm (pushedEvents midi) :=
  List.perm_insertionSort byTime _

theorem length_pushedEvents (midi : Midi) :
    (pushedEvents midi).length = 2 * (midi.tracks.map fun track => track.notes.length).sum := by
  unfold pushedEvents
  induction midi.tracks with
  | nil => rfl
  | cons track tracks ih =>
    have hn : ∀ notes : List Note, (notes.flatMap noteEvents).length = 2 * notes.length := by
      intro notes
      induction notes with
      | nil => rfl
      | cons n ns ihn =>
        simp only [List.flatMap_cons, List.length_append, ihn, List.length_cons]
        simp only [noteEvents, List.length_cons, List.length_nil]
        omega
    simp only [List.flatMap_cons, List.length_append, ih, hn, List.map_cons, List.sum_cons]
    omega

/-- Stability: the events of one timestamp keep their insertion order. -/
theorem filter_time_visualEvents (midi : Midi) (t : ℚ) :
    (visualEvents midi).filter (fun e => e.time = t) =
      (pushedEvents midi).filter (fun e => e.time = t) := by
  have hsub : List.Sublist ((pushedEvents midi).filter (fun e => e.time = t))
      (visualEvents midi) := by
    apply List.sublist_insertionSort
    · rw [List.pairwise_iff_forall_sublist]
      intro a b hab
      have ha := hab.subset (List.mem_cons_self _ _)
      have hb := hab.subset (List.mem_cons_of_mem _ (List.mem_cons_self _ _))
      simp only [List.mem_filter, decide_eq_true_eq] at ha hb
      show a.time ≤ b.time
      rw [ha.2, hb.2]
    · exact List.filter_sublist _
  have hsub2 : List.Sublist ((pushedEvents midi).filter (fun e => e.time = t))
      ((visualEvents midi).filter (fun e => e.time = t)) := by
    have := hsub.filter (fun e => decide (e.time = t))
    simpa only [List.filter_filter, Bool.and_self] using this
  have hlen := ((perm_visualEvents midi).filter (fun e => decide (e.time = t))).length_eq
  exact (hsub2.eq_of_length hlen.symm).symm

theorem catchUp_spec (events : List VisualEvent) (hc : String) (T : ℚ) :
    ∀ (k idx : Nat) (doc : Doc), events.length - idx = k →
      catchUp events hc T doc idx =
        (replay hc doc ((events.drop idx).takeWhile fun e => e.time ≤ T),
          idx + ((events.drop idx).takeWhile fun e => e.time ≤ T).length) := by
  intro k
  induction k with
  | zero =>
    intro idx doc hk
    have hge : events.length ≤ idx := by omega
    rw [catchUp, dif_neg (by omega), List.drop_eq_nil_of_le hge]
    simp [replay]
  | succ k ih =>
    intro idx doc hk
    have hlt : idx < events.length := by omega
    rw [catchUp, dif_pos hlt, List.drop_eq_getElem_cons hlt]
    by_cases ht : (events.get ⟨idx, hlt⟩).time ≤ T
    · rw [if_pos ht, ih (idx + 1) _ (by omega)]
      have ht2 : events[idx].time ≤ T := ht
      simp only [List.takeWhile_cons, ht2, decide_True, if_true, replay, List.foldl_cons,
        List.length_cons, List.get_eq_getElem]
      congr 1
      omega
    · rw [if_neg ht]
      have ht2 : ¬ events[idx].time ≤ T := ht
      simp only [List.takeWhile_cons, ht2, decide_False, replay, List.foldl_nil,
        List.length_nil, Bool.false_eq_true, if_false, Nat.add_zero]

theorem takeWhile_eq_filter_of_sorted (T : ℚ) :
    ∀ l : List VisualEvent, l.Sorted byTime →
      (l.takeWhile fun e => e.time ≤ T) = l.filter fun e => e.time ≤ T := by
  intro l
  induction l with
  | nil => intro _; rfl
  | cons a l ih =>
    intro hs
    have hs2 := List.sorted_cons.mp hs
    by_cases ha : a.time ≤ T
    · simp [List.takeWhile_cons, List.filter_cons, ha, ih hs2.2]
    · simp only [List.takeWhile_cons, List.filter_cons, ha, decide_False, Bool.false_eq_true,
        if_false]
      symm
      rw [List.filter_eq_nil_iff]
      intro b hb
      have : a.time ≤ b.time := hs2.1 b hb
      simp only [decide_eq_true_eq, not_le]
      exact lt_of_lt_of_le (not_le.mp ha) this

theorem filter_append_of_sorted (T : ℚ) :
    ∀ l : List VisualEvent, l.Sorted byTime →
      (l.filter fun e => e.time ≤ T) ++ (l.filter fun e => T < e.time) = l := by
  intro l
  induction l with
  | nil => intro _; rfl
  | cons a l ih =>
    intro hs
    have hs2 := List.sorted_cons.mp hs
    by_cases ha : a.time ≤ T
    · have ha2 : ¬ T < a.time := not_lt.mpr ha
      simp only [List.filter_cons, ha, ha2, decide_True, decide_False, if_true,
        Bool.false_eq_true, if_false, List.cons_append, ih hs2.2]
    · have ha2 : T < a.time := not_le.mp ha
      have hnil : (l.filter fun e => e.time ≤ T) = [] := by
        rw [List.filter_eq_nil_iff]
        intro b hb
        have : a.time ≤ b.time := hs2.1 b hb
        simp only [decide_eq_true_eq, not_le]
        exact lt_of_lt_of_le ha2 this
      have hall : (l.filter fun e => T < e.time) = l := by
        rw [List.filter_eq_self]
        intro b hb
        have : a.time ≤ b.time := hs2.1 b hb
        simp only [decide_eq_true_eq]
        exact lt_of_lt_of_le ha2 this
      simp only [List.filter_cons, ha, ha2, decide_True, decide_False, if_true,
        Bool.false_eq_true, if_false, hnil, hall, List.nil_append]

theorem drop_filter_length_of_sorted (T : ℚ) (l : List VisualEvent) (hs : l.Sorted byTime) :
    l.drop (l.filter fun e => e.time ≤ T).length = l.filter fun e => T < e.time := by
  have h3 : ((l.filter fun e => e.time ≤ T) ++ (l.filter fun e => T < e.time)).drop
      (l.filter fun e => e.time ≤ T).length = l.filter fun e => T < e.time :=
    List.drop_left _ _
  rwa [filter_append_of_sorted T l hs] at h3

theorem filter_le_append_between (T T' : ℚ) (hT : T ≤ T') (l : List VisualEvent)
    (hs : l.Sorted byTime) :
    (l.filter fun e => e.time ≤ T) ++ (l.filter fun e => T < e.time ∧ e.time ≤ T') =
      l.filter fun e => e.time ≤ T' := by
  conv_rhs => rw [← filter_append_of_sorted T l hs]
  rw [List.filter_append, List.filter_filter, List.filter_filter]
  congr 1
  · apply List.filter_congr
    intro e _
    by_cases h1 : e.time ≤ T
    · have : e.time ≤ T' := le_trans h1 hT
      simp [h1, this]
    · simp [h1]
  · apply List.filter_congr
    intro e _
    simp [and_comm]

theorem takeWhile_filter_gt (T T' : ℚ) (l : List VisualEvent) (hs : l.Sorted byTime) :
    ((l.filter fun e => T < e.time).takeWhile fun e => e.time ≤ T') =
      l.filter fun e => T < e.time ∧ e.time ≤ T' := by
  rw [takeWhile_eq_filter_of_sorted T' _ (hs.filter _), List.filter_filter]
  apply List.filter_congr
  intro e _
  simp [and_comm]

theorem replay_append (hc : String) (doc : Doc) (as bs : List VisualEvent) :
    replay hc (replay hc doc as) bs = replay hc doc (as ++ bs) := by
  simp [replay, List.foldl_append]

/-- For a sorted timeline and a non-negative frame interval, at the capture of
frame `i` exactly the events with time at most `i * frameInterval` have been
applied, in order. -/
theorem frameState_eq (events : List VisualEvent) (hs : events.Sorted byTime) (hc : String)
    (fi : ℚ) (hfi : 0 ≤ fi) (doc : Doc) (i : Nat) :
    frameState events hc fi doc i =
      (replay hc doc (events.filter fun e => e.time ≤ (i : ℚ) * fi),
        (events.filter fun e => e.time ≤ (i : ℚ) * fi).length) := by
  induction i with
  | zero =>
    rw [frameState, catchUp_spec events hc _ _ 0 doc rfl, List.drop_zero,
      takeWhile_eq_filter_of_sorted _ _ hs, Nat.zero_add]
  | succ i ih =>
    rw [frameState, ih]
    simp only
    rw [catchUp_spec events hc _ _ _ _ rfl, drop_filter_length_of_sorted _ _ hs,
      takeWhile_filter_gt _ _ _ hs, replay_append, ← List.length_append]
    have hle : (i : ℚ) * fi ≤ ((i + 1 : Nat) : ℚ) * fi := by
      push_cast
      nlinarith
    rw [filter_le_append_between _ _ hle _ hs]

theorem frameState_of_preState (events : List VisualEvent) (hc : String) (fi : ℚ) (doc : Doc)
    (k : Nat) :
    frameState events hc fi doc k =
      catchUp events hc ((k : ℚ) * fi) (preState events hc fi doc k).1
        (preState events hc fi doc k).2 := by
  cases k <;> rfl

theorem zipFile_fresh {α : Type} (zip : Zip α) (name : String) (data : α)
    (h : name ∉ zip.map Prod.fst) : zipFile zip name data = zip ++ [(name, data)] := by
  unfold zipFile
  rw [if_neg]
  simp only [List.any_eq_true, beq_iff_eq, not_exists, not_and]
  intro p hp hpn
  exact h (List.mem_map.mpr ⟨p, hp, hpn⟩)

theorem frameLoop_ok {α : Type} (events : List VisualEvent) (hc : String) (fi : ℚ)
    (capture : Nat → Doc → Option α) (doc : Doc) :
    ∀ (n k : Nat) (st st' : ExportLoop α),
      st.zip.map Prod.fst = (List.range k).map frameName →
      (st.doc, st.eventIndex) = preState events hc fi doc k →
      frameLoop events hc fi capture (List.range' k n) st = Except.ok st' →
      st'.zip = st.zip ++ (List.range' k n).filterMap (fun i =>
          (capture i (frameState events hc fi doc i).1).map fun img => (frameName i, img)) ∧
        (∀ i ∈ List.range' k n, (capture i (frameState events hc fi doc i).1).isSome) ∧
        (st'.doc, st'.eventIndex) = preState events hc fi doc (k + n) ∧
        st'.frameCount = st.frameCount + n := by
  intro n
  induction n with
  | zero =>
    intro k st st' _ hpre hrun
    simp only [List.range'_zero, frameLoop, Except.ok.injEq] at hrun
    subst hrun
    simpa using hpre
  | succ n ih =>
    intro k st st' hnames hpre hrun
    have hfs : catchUp events hc ((k : ℚ) * fi) st.doc st.eventIndex =
        frameState events hc fi doc k := by
      rw [frameState_of_preState, ← hpre]
    rw [List.range'_succ, frameLoop] at hrun
    simp only [hfs] at hrun
    cases hcap : capture k (frameState events hc fi doc k).1 with
    | none => simp [hcap] at hrun
    | some img =>
      simp only [hcap] at hrun
      have hfresh : frameName k ∉ st.zip.map Prod.fst := by
        rw [hnames, List.mem_map]
        rintro ⟨j, hj, hjk⟩
        have := frameName_injective hjk
        rw [List.mem_range] at hj
        omega
      have hz := zipFile_fresh st.zip (frameName k) img hfresh
      obtain ⟨h1, h2, h3, h4⟩ := ih (k + 1) _ st' (by
          simp only [hz, List.map_append, hnames, List.map_cons, List.map_nil,
            List.range_succ]) (by simp [preState]) hrun
      refine ⟨?_, ?_, ?_, ?_⟩
      · rw [h1, hz, List.range'_succ, List.filterMap_cons, hcap]
        simp
      · intro i hi
        rw [List.range'_succ, List.mem_cons] at hi
        rcases hi with rfl | hi
        · simp [hcap]
        · exact h2 i hi
      · rw [h3]
        congr 1
        omega
      · rw [h4]
        simp only
        omega

theorem frameLoop_total {α : Type} (events : List VisualEvent) (hc : String) (fi : ℚ)
    (capture : Nat → Doc → Option α) (hcap : ∀ i d, (capture i d).isSome) :
    ∀ (is : List Nat) (st : ExportLoop α),
      ∃ st', frameLoop events hc fi capture is st = Except.ok st' := by
  intro is
  induction is with
  | nil => intro st; exact ⟨st, rfl⟩
  | cons i is ih =>
    intro st
    rw [frameLoop]
    obtain ⟨img, himg⟩ := Option.isSome_iff_exists.mp
      (hcap i (catchUp events hc ((i : ℚ) * fi) st.doc st.eventIndex).1)
    simp only [himg]
    exact ih _

theorem generateFrames_download {α : Type} (s : AppState) (midi : Midi) (fps : Int)
    (capture : Nat → Doc → Option α) (zip : Zip α)
    (h : (generateFrames s midi fps capture).download = some zip) :
    zip = (List.range (totalFrames midi fps).toNat).filterMap (fun i =>
        (capture i (frameState (visualEvents midi) s.highlightColor (frameInterval fps)
          (stopMIDI s).doc i).1).map fun img => (frameName i, img)) ∧
      ∀ i, i < (totalFrames midi fps).toNat →
        (capture i (frameState (visualEvents midi) s.highlightColor (frameInterval fps)
          (stopMIDI s).doc i).1).isSome := by
  unfold generateFrames at h
  simp only at h
  split at h
  · simp at h
  · rename_i st hrun
    simp only [Option.some.injEq] at h
    rw [List.range_eq_range'] at hrun
    have hcol : (stopMIDI s).highlightColor = s.highlightColor := rfl
    rw [hcol] at hrun
    obtain ⟨h1, h2, -, -⟩ := frameLoop_ok (visualEvents midi) s.highlightColor
      (frameInterval fps) capture (stopMIDI s).doc _ 0 _ st (by simp) (by simp [preState]) hrun
    refine ⟨?_, ?_⟩
    · rw [← h, h1, List.range_eq_range']
      simp
    · intro i hi
      exact h2 i (by simp [List.mem_range']; omega)

theorem generateFrames_succeeds {α : Type} (s : AppState) (midi : Midi) (fps : Int)
    (capture : Nat → Doc → Option α) (hcap : ∀ i d, (capture i d).isSome) :
    ∃ zip, (generateFrames s midi fps capture).download = some zip := by
  unfold generateFrames
  simp only
  obtain ⟨st', hst⟩ := frameLoop_total (visualEvents midi) (stopMIDI s).highlightColor
    (frameInterval fps) capture hcap (List.range (totalFrames midi fps).toNat)
    { doc := (stopMIDI s).doc, eventIndex := 0, zip := [], frameCount := 0 }
  rw [hst]
  exact ⟨st'.zip, rfl⟩

theorem filterMap_of_isSome {α β : Type} (f : α → Option β) :
    ∀ l : List α, (∀ a ∈ l, (f a).isSome) →
      (l.filterMap f).length = l.length ∧
        ∀ j : Nat, (l.filterMap f)[j]? = (l[j]?).bind f := by
  intro l
  induction l with
  | nil => intro _; simp
  | cons a l ih =>
    intro h
    obtain ⟨b, hb⟩ := Option.isSome_iff_exists.mp (h a (List.mem_cons_self _ _))
    obtain ⟨ih1, ih2⟩ := ih fun x hx => h x (List.mem_cons_of_mem _ hx)
    rw [List.filterMap_cons, hb]
    refine ⟨by simp [ih1], ?_⟩
    intro j
    cases j with
    | zero => simp [hb]
    | succ j => simp [ih2]

theorem frameNames_25 : (List.range 25).map frameName =
    ["frame_00000.png", "frame_00001.png", "frame_00002.png", "frame_00003.png",
     "frame_00004.png", "frame_00005.png", "frame_00006.png", "frame_00007.png",
     "frame_00008.png", "frame_00009.png", "frame_00010.png", "frame_00011.png",
     "frame_00012.png", "frame_00013.png", "frame_00014.png", "frame_00015.png",
     "frame_00016.png", "frame_00017.png", "frame_00018.png", "frame_00019.png",
     "frame_00020.png", "frame_00021.png", "frame_00022.png", "frame_00023.png",
     "frame_00024.png"] := by decide

theorem map_fst_filterMap_entry {α : Type} (f : Nat → Option α) :
    ∀ l : List Nat, (∀ i ∈ l, (f i).isSome) →
      ((l.filterMap fun i => (f i).map fun img => (frameName i, img)).map Prod.fst) =
        l.map frameName := by
  intro l
  induction l with
  | nil => intro _; rfl
  | cons a l ih =>
    intro h
    obtain ⟨b, hb⟩ := Option.isSome_iff_exists.mp (h a (List.mem_cons_self _ _))
    rw [List.filterMap_cons]
    simp only [hb, Option.map_some', List.map_cons]
    rw [ih fun x hx => h x (List.mem_cons_of_mem _ hx)]

/-- The entries of the archive of a successful run: entry `i` is the capture
of the document on which the events with time at most `i / fps` have been
applied. -/
theorem generateFrames_entries {α : Type} (s : AppState) (midi : Midi) (fps : Nat)
    (capture : Nat → Doc → Option α) (zip : Zip α) (hfps : 0 < fps)
    (hrun : (generateFrames s midi fps capture).download = some zip) :
    zip.length = (totalFrames midi (fps : Int)).toNat ∧
      ∀ i, i < zip.length → ∃ img, zip[i]? = some (frameName i, img) ∧
        capture i (replay s.highlightColor (stopMIDI s).doc
          ((visualEvents midi).filter fun e => e.time ≤ (i : ℚ) / (fps : ℚ))) = some img := by
  obtain ⟨hz, hsome⟩ := generateFrames_download s midi fps capture zip hrun
  have hfpos : (0 : ℚ) < (fps : ℚ) := by exact_mod_cast hfps
  have hfi : frameInterval (fps : Int) = 1 / (fps : ℚ) := by simp [frameInterval]
  obtain ⟨hlen, hget⟩ := filterMap_of_isSome (fun i =>
    (capture i (frameState (visualEvents midi) s.highlightColor (frameInterval (fps : Int))
      (stopMIDI s).doc i).1).map fun img => (frameName i, img))
    (List.range (totalFrames midi (fps : Int)).toNat)
    (fun i hi => by simpa using hsome i (List.mem_range.mp hi))
  rw [← hz] at hlen hget
  rw [List.length_range] at hlen
  refine ⟨hlen, ?_⟩
  intro i hi
  rw [hlen] at hi
  obtain ⟨img, himg⟩ := Option.isSome_iff_exists.mp (hsome i hi)
  refine ⟨img, ?_, ?_⟩
  · rw [hget, List.getElem?_range hi]
    simp only [Option.some_bind, himg, Option.map_some']
  · rw [frameState_eq _ (sorted_visualEvents midi) _ _ (by rw [hfi]; positivity)] at himg
    simp only [hfi] at himg
    rw [← himg]
    congr 3
    funext e
    rw [mul_one_div]

/-! ## C4: the archive -/

theorem getElementById_id {doc : Doc} {name : String} {key : Elem}
    (h : getElementById doc name = some key) : key.id = name := by
  have := List.find?_some h
  simpa using this

theorem highlightKey_eq (hc : String) (doc : Doc) (name : String) :
    highlightKey hc doc name = setFill doc name hc := by
  unfold highlightKey
  cases h : getElementById doc name with
  | some key => rfl
  | none =>
    simp only
    unfold getElementById at h
    rw [List.find?_eq_none] at h
    induction doc with
    | nil => rfl
    | cons e rest ih =>
      have he : e.id ≠ name := by simpa using h e (List.mem_cons_self _ _)
      rw [setFill, if_neg he, ← ih fun x hx => h x (List.mem_cons_of_mem _ hx)]

theorem resetKey_eq (doc : Doc) (name : String) :
    resetKey doc name = setFill doc name (defaultFill name) := by
  unfold resetKey
  cases h : getElementById doc name with
  | some key =>
    simp only
    rw [getElementById_id h]
    rfl
  | none =>
    simp only
    have := highlightKey_eq (defaultFill name) doc name
    unfold highlightKey at this
    rw [h] at this
    exact this

theorem skeleton_setFill (doc : Doc) (name c : String) :
    skeleton (setFill doc name c) = skeleton doc := by
  induction doc with
  | nil => rfl
  | cons e rest ih =>
    unfold setFill
    split_ifs
    · simp [skeleton]
    · simp only [skeleton, List.map_cons] at ih ⊢
      rw [ih]

theorem skeleton_recolor (hc : String) (doc : Doc) : skeleton (recolor hc doc) = skeleton doc := by
  unfold skeleton recolor
  rw [List.map_map]
  apply List.map_congr_left
  intro e _
  simp only [Function.comp]
  split_ifs <;> rfl

theorem skeleton_applyEvent (hc : String) (doc : Doc) (ev : VisualEvent) :
    skeleton (applyEvent hc doc ev) = skeleton doc := by
  unfold applyEvent
  cases ev.type
  · simp only [highlightKey_eq, skeleton_setFill]
  · simp only [resetKey_eq, skeleton_setFill]

theorem skeleton_replay (hc : String) (evs : List VisualEvent) :
    ∀ doc : Doc, skeleton (replay hc doc evs) = skeleton doc := by
  induction evs with
  | nil => intro doc; rfl
  | cons ev evs ih =>
    intro doc
    show skeleton (replay hc (applyEvent hc doc ev) evs) = skeleton doc
    rw [ih, skeleton_applyEvent]

theorem skeleton_reachable {base d : Doc} (h : Reachable base d) : skeleton d = skeleton base := by
  induction h with
  | built => rfl
  | highlight hc name _ ih => rw [highlightKey_eq, skeleton_setFill, ih]
  | reset name _ ih => rw [resetKey_eq, skeleton_setFill, ih]
  | recolor hc _ ih => rw [skeleton_recolor, ih]

theorem fillOf_setFill (doc : Doc) (name c k : String) :
    fillOf (setFill doc name c) k =
      if k = name then (fillOf doc k).map fun _ => c else fillOf doc k := by
  induction doc with
  | nil => simp [setFill, fillOf, getElementById]
  | cons e rest ih =>
    unfold setFill
    by_cases hen : e.id = name
    · rw [if_pos hen]
      by_cases hk : k = name
      · subst hk
        simp [fillOf, getElementById, List.find?_cons, hen]
      · have : e.id ≠ k := fun h => hk (h ▸ hen)
        simp [fillOf, getElementById, List.find?_cons, hk, this]
    · rw [if_neg hen]
      by_cases hek : e.id = k
      · have hk : k ≠ name := fun h => hen (hek.trans h)
        simp [fillOf, getElementById, List.find?_cons, hek, hk]
      · have h1 : fillOf (e :: setFill rest name c) k = fillOf (setFill rest name c) k := by
          simp [fillOf, getElementById, List.find?_cons, hek]
        have h2 : fillOf (e :: rest) k = fillOf rest k := by
          simp [fillOf, getElementById, List.find?_cons, hek]
        rw [h1, h2, ih]

theorem firstOnly_of_default :
    ∀ (d : Doc) (seen : List String),
      (∀ e ∈ d, isRect e = true → e.fill = defaultFill e.id) → FirstOnly seen d := by
  intro d
  induction d with
  | nil => intro _ _; trivial
  | cons e rest ih =>
    intro seen h
    exact ⟨fun _ hr => h e (List.mem_cons_self _ _) hr,
      ih _ fun x hx => h x (List.mem_cons_of_mem _ hx)⟩

theorem firstOnly_setFill (name c : String) :
    ∀ (d : Doc) (seen : List String), name ∉ seen → FirstOnly seen d →
      FirstOnly seen (setFill d name c) := by
  intro d
  induction d with
  | nil => intro _ _ _; trivial
  | cons e rest ih =>
    intro seen hn h
    unfold setFill
    by_cases he : e.id = name
    · rw [if_pos he]
      refine ⟨fun hs => absurd (he ▸ hs) hn, h.2⟩
    · rw [if_neg he]
      refine ⟨h.1, ih _ ?_ h.2⟩
      simp only [List.mem_cons, not_or]
      exact ⟨fun hh => he hh.symm, hn⟩

theorem firstOnly_recolor (hc : String) :
    ∀ (d : Doc) (seen : List String), FirstOnly seen d → FirstOnly seen (recolor hc d) := by
  intro d
  induction d with
  | nil => intro _ _; trivial
  | cons e rest ih =>
    intro seen h
    have hstep : recolor hc (e :: rest) =
        (if isRect e then
          if e.fill ≠ (if !includesHash e.id then "#D9D9D9" else "#111111") then
            { e with fill := hc } else e
        else e) :: recolor hc rest := rfl
    rw [hstep]
    by_cases hr : isRect e = true
    · rw [if_pos hr]
      by_cases hf : e.fill ≠ (if !includesHash e.id then "#D9D9D9" else "#111111")
      · rw [if_pos hf]
        refine ⟨fun hs _ => ?_, ih _ h.2⟩
        have hd := h.1 hs hr
        exfalso
        apply hf
        rw [hd]
        unfold defaultFill
        cases includesHash e.id <;> rfl
      · rw [if_neg hf]
        exact ⟨h.1, ih _ h.2⟩
    · rw [if_neg hr]
      exact ⟨h.1, ih _ h.2⟩

theorem firstOnly_reachable {base d : Doc} (h : Reachable base d)
    (hb : ∀ e ∈ base, isRect e = true → e.fill = defaultFill e.id) : FirstOnly [] d := by
  induction h with
  | built => exact firstOnly_of_default _ _ hb
  | highlight hc name _ ih =>
    rw [highlightKey_eq]
    exact firstOnly_setFill _ _ _ _ (List.not_mem_nil _) ih
  | reset name _ ih =>
    rw [resetKey_eq]
    exact firstOnly_setFill _ _ _ _ (List.not_mem_nil _) ih
  | recolor hc _ ih => exact firstOnly_recolor _ _ _ ih

theorem firstOnly_cases :
    ∀ (d : Doc) (seen : List String), FirstOnly seen d → ∀ e ∈ d, isRect e = true →
      e.fill = defaultFill e.id ∨ (e.id ∉ seen ∧ getElementById d e.id = some e) := by
  intro d
  induction d with
  | nil => intro _ _ e he; simp at he
  | cons a rest ih =>
    intro seen h e he hr
    rw [List.mem_cons] at he
    rcases he with rfl | he
    · by_cases hs : e.id ∈ seen
      · exact Or.inl (h.1 hs hr)
      · exact Or.inr ⟨hs, by simp [getElementById]⟩
    · rcases ih _ h.2 e he hr with hd | ⟨hns, hg⟩
      · exact Or.inl hd
      · simp only [List.mem_cons, not_or] at hns
        refine Or.inr ⟨hns.2, ?_⟩
        have hne : a.id ≠ e.id := fun hh => hns.1 hh.symm
        unfold getElementById at hg ⊢
        rw [List.find?_cons_of_neg _ (by simpa using hne)]
        exact hg

/-- The identifiers that `resetAllKeys` resets, in order. -/
theorem resetAllKeys_eq (startOctave octavesAmount : Int) (doc : Doc) :
    resetAllKeys startOctave octavesAmount doc =
      ((generateWhiteNotes startOctave octavesAmount) ++
        (generateWhiteNotes startOctave octavesAmount).filterMap blackIdOf).foldl resetKey doc := by
  unfold resetAllKeys
  simp only [List.foldl_append]
  generalize (generateWhiteNotes startOctave octavesAmount).foldl resetKey doc = d
  induction generateWhiteNotes startOctave octavesAmount generalizing d with
  | nil => rfl
  | cons note notes ih =>
    rw [List.foldl_cons, List.filterMap_cons]
    cases hb : blackIdOf note with
    | none => simp only [hb]; exact ih d
    | some b => simp only [hb, List.foldl_cons]; exact ih _

theorem fillOf_foldl_resetKey (k : String) :
    ∀ (ids : List String) (d : Doc), fillOf (ids.foldl resetKey d) k =
      if k ∈ ids then (fillOf d k).map fun _ => defaultFill k else fillOf d k := by
  intro ids
  induction ids with
  | nil => intro d; simp
  | cons a ids ih =>
    intro d
    rw [List.foldl_cons, ih, resetKey_eq, fillOf_setFill]
    by_cases hka : k = a
    · subst hka
      by_cases hk : k ∈ ids
      · simp only [hk, if_true, List.mem_cons, true_or]
        cases fillOf d k <;> rfl
      · simp [hk]
    · by_cases hk : k ∈ ids
      · simp [hk, hka]
      · simp [hk, hka]

theorem setFill_eq_self (name c : String) :
    ∀ d : Doc, (fillOf d name).map (fun _ => c) = fillOf d name → setFill d name c = d := by
  intro d
  induction d with
  | nil => intro _; rfl
  | cons e rest ih =>
    intro h
    unfold setFill
    by_cases he : e.id = name
    · rw [if_pos he]
      have : fillOf (e :: rest) name = some e.fill := by
        simp [fillOf, getElementById, he]
      rw [this] at h
      simp only [Option.map_some', Option.some.injEq] at h
      rw [h]
    · rw [if_neg he]
      have : fillOf (e :: rest) name = fillOf rest name := by
        simp [fillOf, getElementById, List.find?_cons, he]
      rw [this] at h
      rw [ih h]

theorem foldl_resetKey_eq_self :
    ∀ (ids : List String) (d : Doc),
      (∀ k ∈ ids, (fillOf d k).map (fun _ => defaultFill k) = fillOf d k) →
      ids.foldl resetKey d = d := by
  intro ids
  induction ids with
  | nil => intro d _; rfl
  | cons a ids ih =>
    intro d h
    rw [List.foldl_cons, resetKey_eq, setFill_eq_self _ _ _ (h a (List.mem_cons_self _ _))]
    exact ih d fun k hk => h k (List.mem_cons_of_mem _ hk)

theorem resetAllKeys_idempotent (startOctave octavesAmount : Int) (doc : Doc) :
    resetAllKeys startOctave octavesAmount (resetAllKeys startOctave octavesAmount doc) =
      resetAllKeys startOctave octavesAmount doc := by
  rw [resetAllKeys_eq startOctave octavesAmount (resetAllKeys startOctave octavesAmount doc)]
  apply foldl_resetKey_eq_self
  intro k hk
  rw [resetAllKeys_eq, fillOf_foldl_resetKey, if_pos hk]
  cases fillOf doc k <;> rfl

theorem reachable_foldl_resetKey {base : Doc} :
    ∀ (ids : List String) (d : Doc), Reachable base d → Reachable base (ids.foldl resetKey d) := by
  intro ids
  induction ids with
  | nil => intro d h; exact h
  | cons a ids ih => intro d h; exact ih _ (Reachable.reset a h)

theorem reachable_resetAllKeys {base d : Doc} (startOctave octavesAmount : Int)
    (h : Reachable base d) : Reachable base (resetAllKeys startOctave octavesAmount d) := by
  rw [resetAllKeys_eq]
  exact reachable_foldl_resetKey _ _ h

theorem rect_id_mem_resetList (whiteW whiteH blackW blackH : ℚ) (sl sc : Bool)
    (startOctave octavesAmount : Int) (e : Elem)
    (he : e ∈ (buildKeyboard whiteW whiteH blackW blackH sl sc startOctave
      octavesAmount).children) (hr : isRect e = true) :
    e.id ∈ generateWhiteNotes startOctave octavesAmount ++
      (generateWhiteNotes startOctave octavesAmount).filterMap blackIdOf := by
  rw [buildKeyboard_children, List.mem_append] at he
  rw [List.mem_append]
  rcases he with he | he
  · obtain ⟨note, hn, x, rfl | rfl⟩ := mem_whiteElems he
    · exact Or.inl hn
    · simp at hr
  · obtain ⟨p, hp, b, hb, rfl | rfl⟩ := mem_blackElems he
    · exact Or.inr (List.mem_filterMap.mpr ⟨p.1, mem_whitePos hp, hb⟩)
    · simp at hr

theorem head_resetList (startOctave octavesAmount : Int) (k : String)
    (hk : k ∈ generateWhiteNotes startOctave octavesAmount ++
      (generateWhiteNotes startOctave octavesAmount).filterMap blackIdOf) :
    k.data.head? ≠ some 'l' := by
  rw [List.mem_append] at hk
  rcases hk with hk | hk
  · simp only [generateWhiteNotes, List.mem_flatMap, List.mem_range, List.mem_map] at hk
    obtain ⟨j, -, letter, hl, rfl⟩ := hk
    simp only [whiteNotesLetters, List.mem_cons, List.mem_singleton, List.not_mem_nil,
      or_false] at hl
    rw [String.data_append]
    rcases hl with rfl | rfl | rfl | rfl | rfl | rfl | rfl <;> simp
  · obtain ⟨note, -, hb⟩ := List.mem_filterMap.mp hk
    unfold blackIdOf at hb
    split at hb
    · rename_i letter octave _ _
      split at hb
      · rename_i sharp hs
        simp only [Option.some.injEq] at hb
        subst hb
        rw [String.data_append]
        unfold blackNotesMap at hs
        split_ifs at hs <;> simp only [Option.some.injEq] at hs <;> subst hs <;> simp
      · exact absurd hb (by simp)
    · exact absurd hb (by simp)

theorem head_label_id (whiteW whiteH blackW blackH : ℚ) (sl sc : Bool)
    (startOctave octavesAmount : Int) (e : Elem)
    (he : e ∈ (buildKeyboard whiteW whiteH blackW blackH sl sc startOctave
      octavesAmount).children) (hr : isRect e = false) : e.id.data.head? = some 'l' := by
  rw [buildKeyboard_children, List.mem_append] at he
  rcases he with he | he
  · obtain ⟨note, hn, x, rfl | rfl⟩ := mem_whiteElems he
    · simp at hr
    · simp [whiteLabel, String.data_append]
  · obtain ⟨p, hp, b, hb, rfl | rfl⟩ := mem_blackElems he
    · simp at hr
    · simp [blackLabel, String.data_append]

theorem mem_of_skeleton_eq {d base : Doc} (h : skeleton d = skeleton base) {e : Elem}
    (he : e ∈ d) : ∃ e' ∈ base, e'.id = e.id ∧ isRect e' = isRect e := by
  have : ({ e with fill := "" } : Elem) ∈ skeleton base := by
    rw [← h]
    exact List.mem_map.mpr ⟨e, he, rfl⟩
  obtain ⟨e', he', heq⟩ := List.mem_map.mp this
  refine ⟨e', he', ?_, ?_⟩
  · have := congrArg Elem.id heq
    simpa using this
  · have := congrArg Elem.tag heq
    simp only at this
    simp [isRect, this]

/-- After `resetAllKeys` with the octaves the keyboard was built with, every
key carries its default fill. -/
theorem resetAllKeys_default (whiteW whiteH blackW blackH : ℚ) (sl sc : Bool)
    (startOctave octavesAmount : Int) (d : Doc)
    (h : Reachable (buildKeyboard whiteW whiteH blackW blackH sl sc startOctave
      octavesAmount).children d) :
    ∀ e ∈ resetAllKeys startOctave octavesAmount d, isRect e = true →
      e.fill = defaultFill e.id := by
  intro e he hr
  have hreach := reachable_resetAllKeys startOctave octavesAmount h
  have hfo := firstOnly_reachable hreach
    (buildKeyboard_fill whiteW whiteH blackW blackH sl sc startOctave octavesAmount)
  rcases firstOnly_cases _ _ hfo e he hr with hd | ⟨-, hg⟩
  · exact hd
  · obtain ⟨e', he', hid, hrect⟩ := mem_of_skeleton_eq (skeleton_reachable hreach) he
    have hmem := rect_id_mem_resetList whiteW whiteH blackW blackH sl sc startOctave
      octavesAmount e' he' (hrect.trans hr)
    rw [hid] at hmem
    have hf : fillOf (resetAllKeys startOctave octavesAmount d) e.id = some e.fill := by
      simp [fillOf, hg]
    rw [resetAllKeys_eq, fillOf_foldl_resetKey, if_pos hmem] at hf
    cases hfd : fillOf d e.id with
    | none => simp [hfd] at hf
    | some f =>
      simp only [hfd, Option.map_some', Option.some.injEq] at hf
      exact hf.symm

theorem resetAllKeys_idle (whiteW whiteH blackW blackH : ℚ) (sl sc : Bool)
    (startOctave octavesAmount : Int) (d : Doc)
    (hsk : skeleton d = skeleton (buildKeyboard whiteW whiteH blackW blackH sl sc startOctave
      octavesAmount).children)
    (hdef : ∀ e ∈ d, isRect e = true → e.fill = defaultFill e.id) :
    resetAllKeys startOctave octavesAmount d = d := by
  rw [resetAllKeys_eq]
  apply foldl_resetKey_eq_self
  intro k hk
  cases hg : getElementById d k with
  | none => simp [fillOf, hg]
  | some e =>
    have hid := getElementById_id hg
    have he : e ∈ d := List.mem_of_find?_eq_some hg
    obtain ⟨e', he', hid', hrect⟩ := mem_of_skeleton_eq hsk he
    have hr : isRect e = true := by
      by_contra hcon
      have hfalse : isRect e' = false := by
        rw [hrect]
        simpa using hcon
      have hl := head_label_id whiteW whiteH blackW blackH sl sc startOctave octavesAmount
        e' he' hfalse
      rw [hid', hid] at hl
      exact head_resetList startOctave octavesAmount k hk hl
    have := hdef e he hr
    simp [fillOf, hg, this, hid]

theorem elem_eq_of_blank_eq {e1 e2 : Elem}
    (h : ({ e1 with fill := "" } : Elem) = { e2 with fill := "" }) (hf : e1.fill = e2.fill) :
    e1 = e2 := by
  cases e1
  cases e2
  simp only [Elem.mk.injEq] at h ⊢
  simp only at hf
  exact ⟨h.1, h.2.1, h.2.2.1, h.2.2.2.1, h.2.2.2.2.1, h.2.2.2.2.2.1, hf⟩

theorem filter_rect_eq_of_skeleton :
    ∀ (d1 d2 : Doc), skeleton d1 = skeleton d2 →
      (∀ e ∈ d1, isRect e = true → e.fill = defaultFill e.id) →
      (∀ e ∈ d2, isRect e = true → e.fill = defaultFill e.id) →
      d1.filter isRect = d2.filter isRect := by
  intro d1
  induction d1 with
  | nil =>
    intro d2 h _ _
    cases d2 with
    | nil => rfl
    | cons _ _ => simp [skeleton] at h
  | cons a r ih =>
    intro d2 h h1 h2
    cases d2 with
    | nil => simp [skeleton] at h
    | cons b r2 =>
      simp only [skeleton, List.map_cons, List.cons.injEq] at h
      have hrest := ih r2 h.2 (fun e he => h1 e (List.mem_cons_of_mem _ he))
        (fun e he => h2 e (List.mem_cons_of_mem _ he))
      have hidab : a.id = b.id := by simpa using congrArg Elem.id h.1
      have htag : a.tag = b.tag := by simpa using congrArg Elem.tag h.1
      have hrab : isRect a = isRect b := by simp [isRect, htag]
      by_cases hr : isRect a = true
      · have hfa := h1 a (List.mem_cons_self _ _) hr
        have hfb := h2 b (List.mem_cons_self _ _) (hrab ▸ hr)
        have hab : a = b := elem_eq_of_blank_eq h.1 (by rw [hfa, hfb, hidab])
        have hrb : isRect b = true := hrab ▸ hr
        rw [List.filter_cons, List.filter_cons, if_pos hr, if_pos hrb, hrest, hab]
      · have hrb : ¬ isRect b = true := hrab ▸ hr
        rw [List.filter_cons, List.filter_cons, if_neg hr, if_neg hrb, hrest]

theorem reachable_replay {base : Doc} (hc : String) (evs : List VisualEvent) :
    ∀ d : Doc, Reachable base d → Reachable base (replay hc d evs) := by
  induction evs with
  | nil => intro d h; exact h
  | cons ev evs ih =>
    intro d h
    show Reachable base (replay hc (applyEvent hc d ev) evs)
    apply ih
    unfold applyEvent
    cases ev.type
    · exact Reachable.highlight hc ev.note h
    · exact Reachable.reset ev.note h

/-- After `resetKey(k)` the rect at any position that carries the id `k` has
its default fill and is the key that `buildKeyboard` drew there. -/
theorem resetKey_restores (whiteW whiteH blackW blackH : ℚ) (sl sc : Bool)
    (startOctave octavesAmount : Int) (d : Doc) (idx : Nat) (key : Elem)
    (hd : Reachable (buildKeyboard whiteW whiteH blackW blackH sl sc startOctave
      octavesAmount).children d)
    (hkey : (buildKeyboard whiteW whiteH blackW blackH sl sc startOctave
      octavesAmount).children[idx]? = some key)
    (hrect : isRect key = true) :
    (resetKey d key.id)[idx]? = some key := by
  have hreach : Reachable (buildKeyboard whiteW whiteH blackW blackH sl sc startOctave
      octavesAmount).children (resetKey d key.id) := Reachable.reset key.id hd
  have hsk := skeleton_reachable hreach
  have hkmem := List.getElem?_mem hkey
  have hkfill := buildKeyboard_fill whiteW whiteH blackW blackH sl sc startOctave octavesAmount
    key hkmem hrect
  have hget : (skeleton (resetKey d key.id))[idx]? =
      some ({ key with fill := "" } : Elem) := by
    rw [hsk]
    simp [skeleton, List.getElem?_map, hkey]
  simp only [skeleton, List.getElem?_map] at hget
  cases he : (resetKey d key.id)[idx]? with
  | none => simp [he] at hget
  | some e =>
    simp only [he, Option.map_some', Option.some.injEq] at hget
    have hid : e.id = key.id := by simpa using congrArg Elem.id hget
    have htag : e.tag = key.tag := by simpa using congrArg Elem.tag hget
    have her : isRect e = true := by
      simp only [isRect, htag]
      exact hrect
    have hemem := List.getElem?_mem he
    have hfo := firstOnly_reachable hreach
      (buildKeyboard_fill whiteW whiteH blackW blackH sl sc startOctave octavesAmount)
    have hefill : e.fill = defaultFill e.id := by
      rcases firstOnly_cases _ _ hfo e hemem her with h | ⟨-, hg⟩
      · exact h
      · have hf : fillOf (resetKey d key.id) e.id = some e.fill := by simp [fillOf, hg]
        rw [resetKey_eq, fillOf_setFill, if_pos hid] at hf
        cases hfd : fillOf d e.id with
        | none => simp [hfd] at hf
        | some f =>
          simp only [hfd, Option.map_some', Option.some.injEq] at hf
          rw [← hf, hid]
    rw [elem_eq_of_blank_eq hget (by rw [hefill, hkfill, hid])]

theorem octave4_children_7 :
    (buildKeyboard 20 100 12 60 false false 4 1).children[7]? =
      some (blackRect 20 12 60 "C#4" 0) := by
  have hn : generateWhiteNotes 4 1 = ["C4", "D4", "E4", "F4", "G4", "A4", "B4"] := by decide
  have hb : blackIdOf "C4" = some "C#4" := by decide
  rw [buildKeyboard_children, hn]
  simp [whiteElems, whitePos, blackElems, hb]

/-! ## C8: highlight round trip -/

/-- C8, as stated, fails: with the highlight colour `#111111` the black key
`C#4` carries the highlight colour after the round trip (its default fill is
that colour). -/
theorem C8_round_trip_counterexample :
    (buildKeyboard 20 100 12 60 false false 4 1).children[7]?.map (fun e => e.id) =
        some "C#4" ∧
      (resetKey (replay "#111111"
        (highlightKey "#111111" (buildKeyboard 20 100 12 60 false false 4 1).children "C#4")
        []) "C#4")[7]?.map (fun e => e.fill) = some "#111111" := by
  decide

/-- C8, amended: on a keyboard built by `buildKeyboard`, in any state reached
by highlights and resets, applying `highlightKey` for a key `k`, then any
finite sequence of `on`/`off` events, then `resetKey` for `k` leaves `k` as
`buildKeyboard` drew it, with the fill `#D9D9D9` when `k` is a white key and
`#111111` when `k` is a black key; that fill is not the highlight colour
when the highlight colour differs from the default fill of `k`. -/
theorem C8_round_trip (whiteW whiteH blackW blackH : ℚ) (sl sc : Bool)
    (startOctave octavesAmount : Int) (d : Doc) (highlightColor : String)
    (evs : List VisualEvent) (idx : Nat) (key : Elem)
    (hd : Reachable (buildKeyboard whiteW whiteH blackW blackH sl sc startOctave
      octavesAmount).children d)
    (hkey : (buildKeyboard whiteW whiteH blackW blackH sl sc startOctave
      octavesAmount).children[idx]? = some key)
    (hrect : isRect key = true) :
    (resetKey (replay highlightColor (highlightKey highlightColor d key.id) evs) key.id)[idx]? =
        some key ∧
      (key ∈ whiteKeys (buildKeyboard whiteW whiteH blackW blackH sl sc startOctave
        octavesAmount).children → key.fill = "#D9D9D9") ∧
      (key ∈ blackKeys (buildKeyboard whiteW whiteH blackW blackH sl sc startOctave
        octavesAmount).children → key.fill = "#111111") ∧
      (key ∈ whiteKeys (buildKeyboard whiteW whiteH blackW blackH sl sc startOctave
          octavesAmount).children ∨
        key ∈ blackKeys (buildKeyboard whiteW whiteH blackW blackH sl sc startOctave
          octavesAmount).children) ∧
      (highlightColor ≠ defaultFill key.id → key.fill ≠ highlightColor) := by
  have hkmem := List.getElem?_mem hkey
  have hkfill := buildKeyboard_fill whiteW whiteH blackW blackH sl sc startOctave octavesAmount
    key hkmem hrect
  refine ⟨?_, ?_, ?_, ?_, ?_⟩
  · exact resetKey_restores whiteW whiteH blackW blackH sl sc startOctave octavesAmount _ idx
      key (reachable_replay _ _ _ (Reachable.highlight _ _ hd)) hkey hrect
  · intro hw
    simp only [whiteKeys, List.mem_filter, Bool.and_eq_true, Bool.not_eq_true'] at hw
    rw [hkfill, defaultFill, hw.2.2]
    rfl
  · intro hb
    simp only [blackKeys, List.mem_filter, Bool.and_eq_true] at hb
    rw [hkfill, defaultFill, hb.2.2]
    rfl
  · cases hh : includesHash key.id
    · exact Or.inl (by simp [whiteKeys, hkmem, hrect, hh])
    · exact Or.inr (by simp [blackKeys, hkmem, hrect, hh])
  · intro hne heq
    exact hne (by rw [← heq, hkfill])

/-- Witness of C8: the key `C#4` of a one-octave keyboard, highlight colour
`#ff4dac`, an intervening note on `D4`. -/
theorem C8_round_trip_witness :
    (resetKey (replay "#ff4dac"
        (highlightKey "#ff4dac" (buildKeyboard 20 100 12 60 false false 4 1).children
          (blackRect 20 12 60 "C#4" 0).id)
        [{ time := 0, type := EventType.on, note := "D4" },
         { time := 1, type := EventType.off, note := "D4" }])
      (blackRect 20 12 60 "C#4" 0).id)[7]? = some (blackRect 20 12 60 "C#4" 0) ∧
      (blackRect 20 12 60 "C#4" 0).fill ≠ "#ff4dac" := by
  have h := C8_round_trip 20 100 12 60 false false 4 1
    (buildKeyboard 20 100 12 60 false false 4 1).children "#ff4dac"
    [{ time := 0, type := EventType.on, note := "D4" },
     { time := 1, type := EventType.off, note := "D4" }] 7 (blackRect 20 12 60 "C#4" 0)
    Reachable.built octave4_children_7 rfl
  exact ⟨h.1, h.2.2.2.2 (by decide)⟩

/-! ## C9: stop -/

/-- C9: on a keyboard built with the configured octaves, in any state reached
by highlights, resets and colour changes and with or without a synth,
`stopMIDI` leaves every key at its default fill (the keys are as
`buildKeyboard` drew them), no synth, nothing scheduled and the display
`None`; a second `stopMIDI` changes nothing, and neither does `stopMIDI` in a
state that is already idle. -/
theorem C9_stop (whiteW whiteH blackW blackH : ℚ) (sl sc : Bool) (s : AppState)
    (hkb : Reachable (buildKeyboard whiteW whiteH blackW blackH sl sc s.startingOctave
      s.octavesAmount).children s.doc) :
    (∀ key ∈ (stopMIDI s).doc, isRect key = true →
        key.fill = if includesHash key.id then "#111111" else "#D9D9D9") ∧
      (stopMIDI s).doc.filter isRect =
        (buildKeyboard whiteW whiteH blackW blackH sl sc s.startingOctave
          s.octavesAmount).children.filter isRect ∧
      (stopMIDI s).synth = none ∧ (stopMIDI s).currentNote = "None" ∧
      (stopMIDI s).scheduled = [] ∧ (stopMIDI s).transportStarted = false ∧
      stopMIDI (stopMIDI s) = stopMIDI s ∧
      (s.synth = none → s.currentNote = "None" → s.scheduled = [] →
        s.transportStarted = false →
        (∀ key ∈ s.doc, isRect key = true → key.fill = defaultFill key.id) →
        stopMIDI s = s) := by
  have hdef := resetAllKeys_default whiteW whiteH blackW blackH sl sc s.startingOctave
    s.octavesAmount s.doc hkb
  refine ⟨hdef, ?_, rfl, rfl, rfl, rfl, ?_, ?_⟩
  · apply filter_rect_eq_of_skeleton
    · exact skeleton_reachable (reachable_resetAllKeys _ _ hkb)
    · exact hdef
    · exact buildKeyboard_fill whiteW whiteH blackW blackH sl sc s.startingOctave
        s.octavesAmount
  · show ({ stopMIDI s with
        transportStarted := false, scheduled := [], synth := none, currentNote := "None",
        doc := resetAllKeys s.startingOctave s.octavesAmount
          (resetAllKeys s.startingOctave s.octavesAmount s.doc) } : AppState) = stopMIDI s
    rw [resetAllKeys_idempotent]
    rfl
  · intro h1 h2 h3 h4 h5
    have hidle := resetAllKeys_idle whiteW whiteH blackW blackH sl sc s.startingOctave
      s.octavesAmount s.doc (skeleton_reachable hkb) h5
    cases s
    simp only [stopMIDI] at *
    simp only [AppState.mk.injEq]
    exact ⟨hidle, trivial, h1.symm, h2.symm, h4.symm, h3.symm, trivial, trivial⟩

/-- Witness of C9: a keyboard with `C4` highlighted and a synth allocated. -/
theorem C9_stop_witness :
    (stopMIDI playingState).doc.filter isRect =
        (buildKeyboard 20 100 12 60 false false 4 1).children.filter isRect ∧
      (stopMIDI playingState).synth = none ∧
      stopMIDI (stopMIDI playingState) = stopMIDI playingState := by
  have h := C9_stop 20 100 12 60 false false playingState
    (Reachable.highlight "#ff4dac" "C4" Reachable.built)
  exact ⟨h.2.1, h.2.2.1, h.2.2.2.2.2.2.1⟩

/-! ## The fill of a key during the export -/

theorem fillOf_applyEvent (hc k : String) (doc : Doc) (ev : VisualEvent) :
    fillOf (applyEvent hc doc ev) k = fillStep hc k (fillOf doc k) ev := by
  unfold applyEvent fillStep eventFill
  cases ht : ev.type
  · simp only [highlightKey_eq, fillOf_setFill]
    by_cases h : ev.note = k
    · simp [h]
    · have h2 : k ≠ ev.note := fun hh => h hh.symm
      simp [h, h2]
  · simp only [resetKey_eq, fillOf_setFill]
    by_cases h : ev.note = k
    · simp [h]
    · have h2 : k ≠ ev.note := fun hh => h hh.symm
      simp [h, h2]

theorem fillOf_replay (hc k : String) (evs : List VisualEvent) :
    ∀ doc : Doc, fillOf (replay hc doc evs) k = evs.foldl (fillStep hc k) (fillOf doc k) := by
  induction evs with
  | nil => intro doc; rfl
  | cons ev evs ih =>
    intro doc
    show fillOf (replay hc (applyEvent hc doc ev) evs) k = _
    rw [ih, fillOf_applyEvent, List.foldl_cons]

theorem foldl_fillStep_filter (hc k : String) (evs : List VisualEvent) :
    ∀ f : Option String, evs.foldl (fillStep hc k) f =
      (evs.filter fun e => e.note = k).foldl (fillStep hc k) f := by
  induction evs with
  | nil => intro f; rfl
  | cons ev evs ih =>
    intro f
    by_cases h : ev.note = k
    · simp only [List.filter_cons, h, decide_True, if_true, List.foldl_cons]
      exact ih _
    · simp only [List.filter_cons, h, decide_False, Bool.false_eq_true, if_false,
        List.foldl_cons]
      rw [← ih]
      simp [fillStep, h]

theorem map_foldl_fillStep (hc k c : String) (evs : List VisualEvent) :
    ∀ f : Option String, (evs.foldl (fillStep hc k) f).map (fun _ => c) = f.map fun _ => c := by
  induction evs with
  | nil => intro f; rfl
  | cons ev evs ih =>
    intro f
    rw [List.foldl_cons, ih]
    unfold fillStep
    split_ifs
    · cases f <;> rfl
    · rfl

/-- The fill found under `k` after a replay is decided by the last event on `k`. -/
theorem fillOf_replay_last (hc k : String) (evs : List VisualEvent) (doc : Doc) :
    fillOf (replay hc doc evs) k =
      match lastFor k evs with
      | none => fillOf doc k
      | some ev => (fillOf doc k).map fun _ => eventFill hc ev := by
  rw [fillOf_replay, foldl_fillStep_filter]
  unfold lastFor
  cases hl : (evs.filter fun e => e.note = k).getLast? with
  | none =>
    rw [List.getLast?_eq_none_iff] at hl
    rw [hl]
    rfl
  | some ev =>
    obtain ⟨ys, hys⟩ := List.getLast?_eq_some_iff.mp hl
    have hev : ev.note = k := by
      have : ev ∈ evs.filter fun e => e.note = k := by rw [hys]; simp
      simpa using (List.mem_filter.mp this).2
    rw [hys, List.foldl_append, List.foldl_cons, List.foldl_nil]
    simp only
    show fillStep hc k _ ev = _
    unfold fillStep
    rw [if_pos hev]
    exact map_foldl_fillStep hc k _ ys _

theorem carriesHighlight_iff (hc : String) (doc : Doc) (k : String) :
    carriesHighlight hc doc k ↔ fillOf doc k = some hc := by
  unfold carriesHighlight fillOf
  cases getElementById doc k with
  | none => simp
  | some e => simp

theorem pushedEvents_eq (midi : Midi) :
    pushedEvents midi = (allNotes midi).flatMap noteEvents := by
  unfold pushedEvents allNotes
  rw [List.flatMap_assoc]

theorem mem_pushedEvents {midi : Midi} {e : VisualEvent} :
    e ∈ pushedEvents midi ↔ ∃ n ∈ allNotes midi, e ∈ noteEvents n := by
  rw [pushedEvents_eq, List.mem_flatMap]

theorem mem_noteEvents {n : Note} {e : VisualEvent} (h : e ∈ noteEvents n) :
    e.note = n.name ∧ (e.type = EventType.on → e.time = n.time) ∧
      (e.type = EventType.off → e.time = n.time + n.duration) := by
  simp only [noteEvents, List.mem_cons, List.mem_singleton, List.not_mem_nil, or_false] at h
  rcases h with rfl | rfl
  · exact ⟨rfl, fun _ => rfl, fun h => (by cases h)⟩
  · exact ⟨rfl, fun h => (by cases h), fun _ => rfl⟩

theorem le_getLast_of_sorted {l : List VisualEvent} (hs : l.Sorted byTime) {e : VisualEvent}
    (hl : l.getLast? = some e) : ∀ x ∈ l, x.time ≤ e.time := by
  obtain ⟨ys, rfl⟩ := List.getLast?_eq_some_iff.mp hl
  intro x hx
  rw [List.mem_append, List.mem_singleton] at hx
  rcases hx with hx | rfl
  · exact (List.pairwise_append.mp hs).2.2 x hx e (List.mem_singleton_self _)
  · exact le_refl _

theorem getLast?_filter_of_last {l : List VisualEvent} {e : VisualEvent}
    (p : VisualEvent → Bool) (hl : l.getLast? = some e) (hp : p e = true) :
    (l.filter p).getLast? = some e := by
  obtain ⟨ys, rfl⟩ := List.getLast?_eq_some_iff.mp hl
  rw [List.filter_append, List.getLast?_eq_some_iff]
  exact ⟨ys.filter p, by simp [List.filter_cons, hp]⟩

/-- The events on `k` with time at most `T`, in timeline order. -/
theorem mem_due_filter {midi : Midi} {T : ℚ} {k : String} {e : VisualEvent} :
    e ∈ ((visualEvents midi).filter fun x => x.time ≤ T).filter (fun x => x.note = k) ↔
      e ∈ pushedEvents midi ∧ e.time ≤ T ∧ e.note = k := by
  simp only [List.mem_filter, decide_eq_true_eq, (perm_visualEvents midi).mem_iff, and_assoc]

theorem lastFor_on_of_note (midi : Midi) (T : ℚ) (k : String)
    (hdur : ∀ n ∈ allNotes midi, 0 < n.duration)
    (hapart : (allNotes midi).Pairwise Apart)
    (n : Note) (hn : n ∈ allNotes midi) (hname : n.name = k) (hon : n.time ≤ T)
    (hoff : T < n.time + n.duration) :
    ∃ ev, lastFor k ((visualEvents midi).filter fun x => x.time ≤ T) = some ev ∧
      ev.type = EventType.on := by
  have hsorted : (((visualEvents midi).filter fun x => x.time ≤ T).filter
      (fun x => x.note = k)).Sorted byTime := ((sorted_visualEvents midi).filter _).filter _
  have honmem : ({ time := n.time, type := EventType.on, note := n.name } : VisualEvent) ∈
      ((visualEvents midi).filter fun x => x.time ≤ T).filter (fun x => x.note = k) := by
    rw [mem_due_filter]
    exact ⟨mem_pushedEvents.mpr ⟨n, hn, by simp [noteEvents]⟩, hon, hname⟩
  unfold lastFor
  cases hl : (((visualEvents midi).filter fun x => x.time ≤ T).filter
      (fun x => x.note = k)).getLast? with
  | none =>
    rw [List.getLast?_eq_none_iff] at hl
    rw [hl] at honmem
    simp at honmem
  | some ev =>
    refine ⟨ev, rfl, ?_⟩
    have hevmem := List.mem_of_getLast?_eq_some hl
    obtain ⟨-, hevT, hevk⟩ := mem_due_filter.mp hevmem
    have hnle : n.time ≤ ev.time := le_getLast_of_sorted hsorted hl _ honmem
    by_contra hnot
    have ht : ev.type = EventType.off := by
      cases hty : ev.type
      · exact absurd hty hnot
      · rfl
    · exfalso
      -- the last event on `k` is also the last of its timestamp in insertion order
      have h1 := getLast?_filter_of_last (fun x => decide (x.time = ev.time)) hl (by simp)
      have hcomm : ((((visualEvents midi).filter fun x => x.time ≤ T).filter
          (fun x => x.note = k)).filter fun x => decide (x.time = ev.time)) =
          ((((visualEvents midi).filter fun x => x.time = ev.time).filter
            fun x => x.time ≤ T).filter fun x => x.note = k) := by
        simp only [List.filter_filter]
        apply List.filter_congr
        intro x _
        by_cases a1 : x.time = ev.time <;> by_cases a2 : x.note = k <;>
          by_cases a3 : x.time ≤ T <;> simp [a1, a2, a3]
      rw [hcomm, filter_time_visualEvents, pushedEvents_eq] at h1
      obtain ⟨A, B, hAB⟩ := List.append_of_mem hn
      rw [hAB] at h1 hapart
      simp only [List.flatMap_append, List.flatMap_cons, List.filter_append,
        List.getLast?_append] at h1
      have hpw := List.pairwise_append.mp hapart
      have hnB := List.pairwise_cons.mp hpw.2.1
      -- an `off` event of a note `m` on `k` at the time of `ev`
      have key : ∀ (X : List Note), ev ∈ (((X.flatMap noteEvents).filter
          fun x => x.time = ev.time).filter fun x => x.time ≤ T).filter (fun x => x.note = k) →
          ∃ m ∈ X, m.name = k ∧ m.time + m.duration = ev.time := by
        intro X hX
        simp only [List.mem_filter, List.mem_flatMap, decide_eq_true_eq] at hX
        obtain ⟨⟨⟨⟨m, hm, hem⟩, -⟩, -⟩, -⟩ := hX
        have := mem_noteEvents hem
        exact ⟨m, hm, this.1.symm.trans hevk, (this.2.2 ht).symm⟩
      cases hB : ((((B.flatMap noteEvents).filter fun x => x.time = ev.time).filter
          fun x => x.time ≤ T).filter fun x => x.note = k).getLast? with
      | some x =>
        rw [hB] at h1
        simp only [Option.or_some, Option.some.injEq] at h1
        have hx := List.mem_of_getLast?_eq_some hB
        try subst h1
        obtain ⟨m, hm, hmk, hmend⟩ := key B (by simpa using hx)
        have hmd := hdur m (by rw [hAB]; simp [hm])
        rcases hnB.1 m hm (hname.trans hmk.symm) with h | h
        · linarith
        · linarith
      | none =>
        rw [hB] at h1
        simp only [Option.none_or] at h1
        cases hN : ((((noteEvents n).filter fun x => x.time = ev.time).filter
            fun x => x.time ≤ T).filter fun x => x.note = k).getLast? with
        | some x =>
          rw [hN] at h1
          simp only [Option.or_some, Option.some.injEq] at h1
          have hx := List.mem_of_getLast?_eq_some hN
          subst h1
          simp only [List.mem_filter, decide_eq_true_eq] at hx
          have := (mem_noteEvents hx.1.1.1).2.2 ht
          linarith
        | none =>
          rw [hN] at h1
          simp only [Option.none_or] at h1
          have hA := List.mem_of_getLast?_eq_some h1
          obtain ⟨m, hm, hmk, hmend⟩ := key A hA
          have hmd := hdur m (by rw [hAB]; simp [hm])
          have hne : n.time ≠ ev.time := by
            intro heq
            rw [List.getLast?_eq_none_iff] at hN
            have : ({ time := n.time, type := EventType.on, note := n.name } : VisualEvent) ∈
                (((noteEvents n).filter fun x => x.time = ev.time).filter
                  fun x => x.time ≤ T).filter fun x => x.note = k := by
              simp [noteEvents, heq, hname, hevT]
            rw [hN] at this
            simp at this
          have hlt : n.time < ev.time := lt_of_le_of_ne hnle hne
          rcases hpw.2.2 m hm n (List.mem_cons_self _ _) (hmk.trans hname.symm) with h | h
          · linarith
          · linarith

theorem note_of_lastFor_on (midi : Midi) (T : ℚ) (k : String)
    (hdur : ∀ n ∈ allNotes midi, 0 < n.duration) (ev : VisualEvent)
    (hl : lastFor k ((visualEvents midi).filter fun x => x.time ≤ T) = some ev)
    (ht : ev.type = EventType.on) :
    ∃ n ∈ allNotes midi, n.name = k ∧ n.time ≤ T ∧ T < n.time + n.duration := by
  have hsorted : (((visualEvents midi).filter fun x => x.time ≤ T).filter
      (fun x => x.note = k)).Sorted byTime := ((sorted_visualEvents midi).filter _).filter _
  unfold lastFor at hl
  have hevmem := List.mem_of_getLast?_eq_some hl
  obtain ⟨hpush, hevT, hevk⟩ := mem_due_filter.mp hevmem
  obtain ⟨n, hn, hen⟩ := mem_pushedEvents.mp hpush
  have hfacts := mem_noteEvents hen
  have htime := hfacts.2.1 ht
  refine ⟨n, hn, hfacts.1.symm.trans hevk, by rw [← htime]; exact hevT, ?_⟩
  by_contra hcon
  have hend : n.time + n.duration ≤ T := not_lt.mp hcon
  have hoffmem : ({ time := n.time + n.duration, type := EventType.off, note := n.name } :
      VisualEvent) ∈ ((visualEvents midi).filter fun x => x.time ≤ T).filter
        (fun x => x.note = k) := by
    rw [mem_due_filter]
    exact ⟨mem_pushedEvents.mpr ⟨n, hn, by simp [noteEvents]⟩, hend,
      hfacts.1.symm.trans hevk⟩
  have := le_getLast_of_sorted hsorted hl _ hoffmem
  have hd := hdur n hn
  simp only at this
  linarith

theorem defaultFill_cases (k : String) : defaultFill k = "#111111" ∨ defaultFill k = "#D9D9D9" := by
  unfold defaultFill
  cases includesHash k
  · exact Or.inr rfl
  · exact Or.inl rfl

/-- After `stopMIDI`, the fill found under the id of a key is its default. -/
theorem fillOf_stopMIDI (whiteW whiteH blackW blackH : ℚ) (sl sc : Bool) (s : AppState)
    (k : String)
    (hkb : Reachable (buildKeyboard whiteW whiteH blackW blackH sl sc s.startingOctave
      s.octavesAmount).children s.doc)
    (hk : ∃ key ∈ (buildKeyboard whiteW whiteH blackW blackH sl sc s.startingOctave
      s.octavesAmount).children, isRect key = true ∧ key.id = k) :
    fillOf (stopMIDI s).doc k = some (defaultFill k) := by
  obtain ⟨key, hkey, hrect, hid⟩ := hk
  have hmem := rect_id_mem_resetList whiteW whiteH blackW blackH sl sc s.startingOctave
    s.octavesAmount key hkey hrect
  rw [hid] at hmem
  obtain ⟨e, he, heid, -⟩ := mem_of_skeleton_eq (skeleton_reachable hkb).symm hkey
  show fillOf (resetAllKeys s.startingOctave s.octavesAmount s.doc) k = _
  rw [resetAllKeys_eq, fillOf_foldl_resetKey, if_pos hmem]
  cases hg : getElementById s.doc k with
  | none =>
    unfold getElementById at hg
    rw [List.find?_eq_none] at hg
    have := hg e he
    simp [heid, hid] at this
  | some x => simp [fillOf, hg]

/-- The keys that carry the highlight fill on the document on which the
events up to the instant `T` have been applied. -/
theorem carriesHighlight_replay_iff (whiteW whiteH blackW blackH : ℚ) (sl sc : Bool)
    (s : AppState) (midi : Midi) (T : ℚ) (k : String)
    (hkb : Reachable (buildKeyboard whiteW whiteH blackW blackH sl sc s.startingOctave
      s.octavesAmount).children s.doc)
    (hk : ∃ key ∈ (buildKeyboard whiteW whiteH blackW blackH sl sc s.startingOctave
      s.octavesAmount).children, isRect key = true ∧ key.id = k)
    (hcol : s.highlightColor ≠ "#D9D9D9" ∧ s.highlightColor ≠ "#111111")
    (hdur : ∀ n ∈ allNotes midi, 0 < n.duration)
    (hapart : (allNotes midi).Pairwise Apart) :
    carriesHighlight s.highlightColor
        (replay s.highlightColor (stopMIDI s).doc
          ((visualEvents midi).filter fun e => e.time ≤ T)) k ↔
      ∃ track ∈ midi.tracks, ∃ n ∈ track.notes,
        n.name = k ∧ n.time ≤ T ∧ T < n.time + n.duration := by
  have hnotes : (∃ track ∈ midi.tracks, ∃ n ∈ track.notes,
      n.name = k ∧ n.time ≤ T ∧ T < n.time + n.duration) ↔
      ∃ n ∈ allNotes midi, n.name = k ∧ n.time ≤ T ∧ T < n.time + n.duration := by
    simp only [allNotes, List.mem_flatMap]
    constructor
    · rintro ⟨track, ht, n, hn, h⟩
      exact ⟨n, ⟨track, ht, hn⟩, h⟩
    · rintro ⟨n, ⟨track, ht, hn⟩, h⟩
      exact ⟨track, ht, n, hn, h⟩
  have hne : ∀ x : String, defaultFill x ≠ s.highlightColor := by
    intro x hx
    rcases defaultFill_cases x with h | h
    · exact hcol.2 (by rw [← hx, h])
    · exact hcol.1 (by rw [← hx, h])
  rw [hnotes, carriesHighlight_iff, fillOf_replay_last,
    fillOf_stopMIDI whiteW whiteH blackW blackH sl sc s k hkb hk]
  constructor
  · intro h
    cases hl : lastFor k ((visualEvents midi).filter fun e => e.time ≤ T) with
    | none =>
      rw [hl] at h
      simp only [Option.some.injEq] at h
      exact absurd h (hne k)
    | some ev =>
      rw [hl] at h
      simp only [Option.map_some', Option.some.injEq] at h
      have ht : ev.type = EventType.on := by
        cases hty : ev.type
        · rfl
        · simp only [eventFill, hty] at h
          exact absurd h (hne _)
      exact note_of_lastFor_on midi T k hdur ev hl ht
  · rintro ⟨n, hn, hname, hon, hoff⟩
    obtain ⟨ev, hl, ht⟩ := lastFor_on_of_note midi T k hdur hapart n hn hname hon hoff
    rw [hl]
    simp [eventFill, ht]

theorem visualEvents_overlapMidi :
    visualEvents overlapMidi =
      [{ time := 0, type := EventType.on, note := "C4" },
       { time := 1, type := EventType.on, note := "C4" },
       { time := 0 + 2, type := EventType.off, note := "C4" },
       { time := 1 + 2, type := EventType.off, note := "C4" }] := by
  simp [visualEvents, pushedEvents, overlapMidi, noteEvents, List.insertionSort,
    List.orderedInsert, byTime]

theorem octave4_C4_key :
    ∃ key ∈ (buildKeyboard 20 100 12 60 false false 4 1).children,
      isRect key = true ∧ key.id = "C4" := by
  have hn : generateWhiteNotes 4 1 = ["C4", "D4", "E4", "F4", "G4", "A4", "B4"] := by decide
  refine ⟨whiteRect 20 100 "C4" 0, ?_, rfl, rfl⟩
  rw [buildKeyboard_children, hn]
  simp [whiteElems]

/-! ## C1: the highlighted keys at the capture of a frame -/

end Midiplay
